import Mathlib

/-!
Verification of `hashToCurve`.

A shallow embedding of `HashTocuvre/opH2C.go` (message expansion with the XMD
construction, hashing to a field, the Simplified SWU map and the two
orchestrators) together with theorems about it.

Conventions of the embedding.

* A Go `[]byte` is a `List Nat`; a byte conversion `byte(x)` is `x % 256`.
* A Go `uint` is a natural number below `2 ^ 64`; arithmetic that can leave
  that range is reduced with `wrap`.
* A Go panic is the `error` case of `Except Panic`.
* The hash function, the field and the curve are collaborators of the
  repository (standard library and `tozan-ecc`); they enter as parameters.
-/

namespace H2C

/-! ## Panics -/

/-- The ways in which the embedded code can abort. -/
inductive Panic where
  /-- `panic(errors.New("requested too many bytes"))` in `Expand`. -/
  | tooManyBytes
  /-- Run-time panic: integer division by zero. -/
  | divideByZero
  /-- Run-time panic: index or slice bound out of range. -/
  | outOfRange
  /-- The field collaborator refused an operation (inversion of zero). -/
  | arithmetic
  /-- `panic(fmt.Errorf("Failed restrictions for sswu"))` in `newSSWU`. -/
  | failedRestrictions
  deriving DecidableEq

/-! ## Machine integers -/

/-- Number of values of a Go `uint` on a 64-bit platform. -/
def uintSize : Nat := 2 ^ 64

/-- Reduction of a natural number to a Go `uint`. -/
def wrap (x : Nat) : Nat := x % uintSize

/-! ## The hash collaborator (`crypto.Hash`, `hash.Hash`) -/

/-- A hash function as `Expand` sees it: `Size()`, `BlockSize()` and the digest
of the bytes written since the last `Reset`. -/
structure HashAlg where
  /-- Value of `H.Size()`. -/
  Size : Nat
  /-- Value of `H.BlockSize()`. -/
  BlockSize : Nat
  /-- The digest `H.Sum(nil)` as a function of the bytes written. -/
  digest : List Nat → List Nat

/-- Contract of `hash.Hash`: `Sum` returns `Size()` bytes, and `Size()` is a
Go `int`. -/
def HashAlg.WellFormed (H : HashAlg) : Prop :=
  (∀ x, (H.digest x).length = H.Size) ∧ H.Size < 2 ^ 63

/-- One call on the hash object. -/
inductive HashOp where
  | reset
  | write (bs : List Nat)
  | sum
  deriving DecidableEq

/-- State of the hash object `H`: the bytes written since the last `Reset`, and
the record of every call made on it since `New`. -/
structure HashState where
  buf : List Nat
  ops : List HashOp
  deriving DecidableEq

/-- State after `e.id.New()`. -/
def HashState.New : HashState := { buf := [], ops := [] }

/-- Effect of `H.Reset()`. -/
def HashState.Reset (s : HashState) : HashState :=
  { buf := [], ops := s.ops ++ [HashOp.reset] }

/-- Effect of `H.Write(bs)`. -/
def HashState.Write (s : HashState) (bs : List Nat) : HashState :=
  { buf := s.buf ++ bs, ops := s.ops ++ [HashOp.write bs] }

/-- Effect and value of `H.Sum(nil)`. -/
def HashState.Sum (H : HashAlg) (s : HashState) : List Nat × HashState :=
  (H.digest s.buf, { buf := s.buf, ops := s.ops ++ [HashOp.sum] })

/-! ## `expanderXMD` -/

/-- The struct `expanderXMD`. -/
structure expanderXMD where
  id : HashAlg
  dst : List Nat

/-- The function `xor`: `result[i] = a[i] ^ b[i]` for every index of `a`; the
index into `b` panics when `b` is shorter than `a`. -/
def xor : List Nat → List Nat → Except Panic (List Nat)
  | [], _ => Except.ok []
  | _ :: _, [] => Except.error Panic.outOfRange
  | x :: a, y :: b =>
    match xor a b with
    | Except.ok r => Except.ok ((x ^^^ y) :: r)
    | Except.error p => Except.error p

/-- The two bytes `libStr` of `Expand`: `byte((n >> 8) & 0xFF)` and
`byte(n & 0xFF)`. -/
def libStr (n : Nat) : List Nat := [((n >>> 8) &&& 0xFF) % 256, (n &&& 0xFF) % 256]

/-- The loop `for i := uint(2); i <= ell; i++` of `Expand`, as a recursion on
the number `k` of iterations still to run; `i` is the loop variable, `bi` the
previous block and `pseudo` the bytes collected so far. -/
def expandLoop (H : HashAlg) (dst b0 : List Nat) :
    Nat → Nat → HashState → List Nat → List Nat → Except Panic (List Nat) × HashState
  | 0, _, s, _, pseudo => (Except.ok pseudo, s)
  | k + 1, i, s, bi, pseudo =>
    let s1 := s.Reset
    match xor bi b0 with
    | Except.error p => (Except.error p, s1)
    | Except.ok x =>
      let s2 := s1.Write x
      let s3 := s2.Write [i % 256]
      let s4 := s3.Write dst
      let r := s4.Sum H
      expandLoop H dst b0 k (i + 1) r.2 r.1 (pseudo ++ r.1)

/-- The method `(*expanderXMD).Expand`. The result is paired with the final
state of the hash object, so that the calls made on it can be observed. The
loop runs for `i = 2, ..., ell`, that is `ell - 1` times. -/
def expanderXMD.Expand (e : expanderXMD) (msg : List Nat) (n : Nat) :
    Except Panic (List Nat) × HashState :=
  let H := e.id
  let s := HashState.New
  let bLen := H.Size
  if bLen = 0 then (Except.error Panic.divideByZero, s)
  else
    let ell := wrap (n + wrap (bLen - 1)) / bLen
    if ell > 255 ∨ n > 65535 ∨ e.dst.length > 255 then
      (Except.error Panic.tooManyBytes, s)
    else
      let zPad := List.replicate H.BlockSize 0
      let libStr := libStr n
      let s := s.Reset
      let s := s.Write zPad
      let s := s.Write msg
      let s := s.Write libStr
      let s := s.Write [0]
      let s := s.Write e.dst
      let r0 := s.Sum H
      let b0 := r0.1
      let s := r0.2.Reset
      let s := s.Write b0
      let s := s.Write [1]
      let s := s.Write e.dst
      let r1 := s.Sum H
      let bi := r1.1
      let pseudo := [] ++ bi
      match expandLoop H e.dst b0 (ell - 1) 2 r1.2 bi pseudo with
      | (Except.error p, s) => (Except.error p, s)
      | (Except.ok pseudo, s) =>
        if n ≤ pseudo.length then (Except.ok (pseudo.take n), s)
        else (Except.error Panic.outOfRange, s)

/-! ### The construction as the specification words it -/

/-- Two-byte big-endian encoding `I2OSP(n, 2)`. -/
def I2OSP2 (n : Nat) : List Nat := [n / 256, n % 256]

/-- The block `b0 = H(zeroPad(blockSize) || msg || I2OSP(n, 2) || 0x00 || dst)`. -/
def specB0 (H : HashAlg) (dst msg : List Nat) (n : Nat) : List Nat :=
  H.digest (List.replicate H.BlockSize 0 ++ msg ++ I2OSP2 n ++ [0] ++ dst)

/-- The blocks `b_i`: `b_1 = H(b0 || 0x01 || dst)` and
`b_i = H((b_{i-1} XOR b0) || i || dst)` for `i ≥ 2`; index `0` gives `b0`. -/
def specBlock (H : HashAlg) (dst b0 : List Nat) : Nat → List Nat
  | 0 => b0
  | 1 => H.digest (b0 ++ [1] ++ dst)
  | i + 2 =>
    H.digest (List.zipWith (fun x y => x ^^^ y) (specBlock H dst b0 (i + 1)) b0
      ++ [i + 2] ++ dst)

/-- The number of blocks `ell = ceil(n / b)`. -/
def specEll (b n : Nat) : Nat := (n + b - 1) / b

/-- The first `n` bytes of `b_1 || ... || b_ell`. -/
def specExpand (H : HashAlg) (dst msg : List Nat) (n : Nat) : List Nat :=
  (((List.range (specEll H.Size n)).map
      (fun k => specBlock H dst (specB0 H dst msg n) (k + 1))).flatten).take n

/-! ## The field and curve collaborators (`tozan-ecc`) -/

/-- Modelled from the spec: the field collaborator `GF.Field`, whose source is
not part of the repository. Addition, multiplication, squaring, negation,
`One`, `IsZero` and `AreEqual` are the operations of the field `K`; the other
capabilities the code calls are the fields of this structure. `Inv` may refuse
its argument (the specification names inversion of zero as an arithmetic
error). -/
structure GField (K : Type) where
  /-- Value of `F.Ext()`, the extension degree. -/
  Ext : Nat
  /-- Value of `F.P()`, the characteristic. -/
  P : Nat
  /-- The constructor `F.Elt(v)` for a slice `v` of integer coordinates. -/
  Elt : List Nat → K
  /-- The inversion `F.Inv`. -/
  Inv : K → Except Panic K
  /-- The test `F.IsSquare`. -/
  IsSquare : K → Bool
  /-- The square root `F.Sqrt`. -/
  Sqrt : K → K
  /-- The sign `F.Sgn0`, a Go `int`. -/
  Sgn0 : K → Int

/-- Modelled from the spec: `F.CMov(a, b, c)` selects `b` when `c` holds and
`a` otherwise. -/
def CMov {K : Type} (a b : K) (c : Bool) : K := if c then b else a

/-- Modelled from the spec: the Weierstrass curve `C.W` of the curve
collaborator, with its field `F`, its coefficients and its point constructor. -/
structure W (K Pt : Type) where
  F : GField K
  A : K
  B : K
  NewPoint : K → K → Pt

/-- Modelled from the spec: `EvalRHS`, the right-hand side of the curve
equation `y^2 = x^3 + A*x + B` evaluated at `x`. -/
def W.EvalRHS {K Pt : Type} [Field K] (E : W K Pt) (x : K) : K :=
  x ^ 3 + E.A * x + E.B

/-- Modelled from the spec: the interface `C.EllCurve` as the orchestrators use
it (point addition and cofactor clearing). -/
structure EllCurve (Pt : Type) where
  Add : Pt → Pt → Pt
  ClearCofactor : Pt → Pt

/-- Modelled from the spec: the interface `C.Isogeny` (its domain curve and the
pushforward of a point). -/
structure Isogeny (K Pt : Type) where
  Domain : W K Pt
  Push : Pt → Pt

/-- The contract of the field collaborator that the claims assume: `Inv`
inverts every non-zero element, `IsSquare` is the quadratic-residue test and
`Sqrt` returns a root of every square. -/
structure LawfulField {K : Type} [Field K] (F : GField K) : Prop where
  inv : ∀ a : K, a ≠ 0 → F.Inv a = Except.ok a⁻¹
  isSquare : ∀ a : K, F.IsSquare a = true ↔ IsSquare a
  sqrt : ∀ a : K, IsSquare a → F.Sqrt a * F.Sqrt a = a

/-- The contract of the sign function that the claims assume: `Sgn0` returns
`0` or `1`, `Sgn0(0) = 0`, and a non-zero element and its negation have
different signs. -/
structure LawfulSign {K : Type} [Field K] (F : GField K) : Prop where
  binary : ∀ a : K, F.Sgn0 a = 0 ∨ F.Sgn0 a = 1
  zero : F.Sgn0 0 = 0
  neg : ∀ a : K, a ≠ 0 → F.Sgn0 (-a) ≠ F.Sgn0 a

/-! ## `fieldEncoding` -/

/-- The interface `Expander`. -/
structure Expander where
  Expand : List Nat → Nat → Except Panic (List Nat)

/-- An `expanderXMD` seen through the interface `Expander`. -/
def expanderXMD.toExpander (e : expanderXMD) : Expander :=
  { Expand := fun msg n => (e.Expand msg n).1 }

/-- The struct `fieldEncoding`. -/
structure fieldEncoding (K : Type) where
  F : GField K
  Exp : Expander
  L : Nat

/-- The slice expression `xs[lo:hi]`, which panics unless `lo ≤ hi ≤ len(xs)`.
(Go compares `hi` with the capacity; a list has no spare capacity.) -/
def slice (xs : List Nat) (lo hi : Nat) : Except Panic (List Nat) :=
  if lo ≤ hi ∧ hi ≤ xs.length then Except.ok ((xs.drop lo).take (hi - lo))
  else Except.error Panic.outOfRange

/-- The value of `new(big.Int).SetBytes(t)`: `t` read as a big-endian unsigned
integer. -/
def os2ip (t : List Nat) : Nat := t.foldl (fun acc b => acc * 256 + b) 0

/-- A loop `for i := start; ...; i++` that runs `k` times and collects the
values of its body in order; the first panic of the body aborts the loop. -/
def forLoop {α : Type} (body : Nat → Except Panic α) : Nat → Nat → Except Panic (List α)
  | 0, _ => Except.ok []
  | k + 1, i =>
    match body i with
    | Except.error p => Except.error p
    | Except.ok a =>
      match forLoop body k (i + 1) with
      | Except.error p => Except.error p
      | Except.ok r => Except.ok (a :: r)

/-- The body of the inner loop of `hashToField`: the value stored in `v[j]`
during round `i`. `vj.Mod(vj, p)` panics when `p` is zero. -/
def hashToFieldCoord {K : Type} (f : fieldEncoding K) (pseudo : List Nat) (i j : Nat) :
    Except Panic Nat :=
  let m := f.F.Ext
  let p := f.F.P
  let offset := wrap (f.L * wrap (j + wrap (i * m)))
  match slice pseudo offset (wrap (offset + f.L)) with
  | Except.error e => Except.error e
  | Except.ok t =>
    let vj := os2ip t
    if p = 0 then Except.error Panic.divideByZero else Except.ok (vj % p)

/-- The method `(*fieldEncoding).hashToField`. -/
def fieldEncoding.hashToField {K : Type} (f : fieldEncoding K) (msg : List Nat)
    (count : Nat) : Except Panic (List K) :=
  let m := f.F.Ext
  let length := wrap (wrap (count * m) * f.L)
  match f.Exp.Expand msg length with
  | Except.error e => Except.error e
  | Except.ok pseudo =>
    forLoop (fun i =>
      match forLoop (fun j => hashToFieldCoord f pseudo i j) m 0 with
      | Except.error e => Except.error e
      | Except.ok v => Except.ok (f.F.Elt v)) count 0

/-- The method `(*fieldEncoding).Hash`: `f.hashToField(msg, 1)[0]`. -/
def fieldEncoding.Hash {K : Type} (f : fieldEncoding K) (msg : List Nat) : Except Panic K :=
  match f.hashToField msg 1 with
  | Except.error e => Except.error e
  | Except.ok [] => Except.error Panic.outOfRange
  | Except.ok (u0 :: _) => Except.ok u0

/-- The `j`-th coordinate of the `i`-th element as the specification words it:
the big-endian value of the `L` bytes at offset `L * (j + i * m)`, modulo `p`. -/
def specCoord {K : Type} (f : fieldEncoding K) (pseudo : List Nat) (i j : Nat) : Nat :=
  os2ip ((pseudo.drop (f.L * (j + i * f.F.Ext))).take f.L) % f.F.P

/-- The `i`-th field element as the specification words it: `F.Elt` of its `m`
coordinates. -/
def specElt {K : Type} (f : fieldEncoding K) (pseudo : List Nat) (i : Nat) : K :=
  f.F.Elt ((List.range f.F.Ext).map (fun j => specCoord f pseudo i j))

/-! ## The Simplified SWU map -/

/-- The struct `sswu`. The constants `c1` and `c2` are unset until `precmp`
runs. -/
structure sswu (K Pt : Type) where
  E : W K Pt
  Z : K
  c1 : Option K
  c2 : Option K

/-- The method `(*sswu).sqrtRatio`. -/
def sswu.sqrtRatio {K Pt : Type} [Field K] (m : sswu K Pt) (u v : K) :
    Except Panic (Bool × K) :=
  let F := m.E.F
  match F.Inv v with
  | Except.error e => Except.error e
  | Except.ok r =>
    let r := r * u
    if F.IsSquare r then Except.ok (true, F.Sqrt r)
    else
      let r := r * m.Z
      Except.ok (false, F.Sqrt r)

/-- The method `(*sswu).verify`. `F.Elt(-1)` is the field element `-1`. -/
def sswu.verify {K Pt : Type} [Field K] [DecidableEq K] (m : sswu K Pt) :
    Except Panic Bool :=
  let F := m.E.F
  let precond1 := !decide (m.E.A = 0)
  let precond2 := !decide (m.E.B = 0)
  let cond1 := !F.IsSquare m.Z
  let cond2 := !decide (m.Z = -1)
  let t0 := m.Z * m.E.A
  match F.Inv t0 with
  | Except.error e => Except.error e
  | Except.ok t0 =>
    let t0 := t0 * m.E.B
    let g := m.E.EvalRHS t0
    let cond4 := F.IsSquare g
    Except.ok (precond1 && precond2 && cond1 && cond2 && cond4)

/-- The method `(*sswu).precmp`; the result is the updated struct. -/
def sswu.precmp {K Pt : Type} [Field K] (m : sswu K Pt) : Except Panic (sswu K Pt) :=
  let F := m.E.F
  match F.Inv m.E.A with
  | Except.error e => Except.error e
  | Except.ok t0 =>
    let t0 := t0 * m.E.B
    let c1 := -t0
    match F.Inv m.Z with
    | Except.error e => Except.error e
    | Except.ok t0 =>
      let c2 := -t0
      Except.ok { E := m.E, Z := m.Z, c1 := some c1, c2 := some c2 }

/-- The function `newSSWU` on a Weierstrass curve. -/
def newSSWU {K Pt : Type} [Field K] [DecidableEq K] (e : W K Pt) (z : K) :
    Except Panic (sswu K Pt) :=
  let s : sswu K Pt := { E := e, Z := z, c1 := none, c2 := none }
  match s.verify with
  | Except.error p => Except.error p
  | Except.ok true => s.precmp
  | Except.ok false => Except.error Panic.failedRestrictions

/-- The coordinates `(x, y)` that `(*sswu).Map` hands to `NewPoint`: steps 1 to
25 of the method. -/
def sswu.mapCoords {K Pt : Type} [Field K] [DecidableEq K] (m : sswu K Pt) (u : K) :
    Except Panic (K × K) :=
  let F := m.E.F
  let tv1 := u * u
  let tv1 := m.Z * tv1
  let tv2 := tv1 * tv1
  let tv2 := tv2 + tv1
  let tv3 := tv2 + 1
  let tv3 := m.E.B * tv3
  let tv4 := CMov m.Z (-tv2) (!decide (tv2 = 0))
  let tv4 := m.E.A * tv4
  let tv2 := tv3 * tv3
  let tv6 := tv4 * tv4
  let tv5 := m.E.A * tv6
  let tv2 := tv2 + tv5
  let tv2 := tv2 * tv3
  let tv6 := tv6 * tv4
  let tv5 := m.E.B * tv6
  let tv2 := tv2 + tv5
  let x := tv1 * tv3
  match m.sqrtRatio tv2 tv6 with
  | Except.error e => Except.error e
  | Except.ok (isGx1Square, y1) =>
    let y := tv1 * u
    let y := y * y1
    let x := CMov x tv3 isGx1Square
    let y := CMov y y1 isGx1Square
    let e1 := decide (F.Sgn0 u = F.Sgn0 y)
    let y := CMov (-y) y e1
    match F.Inv tv4 with
    | Except.error e => Except.error e
    | Except.ok tv4 =>
      let x := x * tv4
      Except.ok (x, y)

/-- The method `(*sswu).Map`. -/
def sswu.Map {K Pt : Type} [Field K] [DecidableEq K] (m : sswu K Pt) (u : K) :
    Except Panic Pt :=
  match m.mapCoords u with
  | Except.error e => Except.error e
  | Except.ok (x, y) => Except.ok (m.E.NewPoint x y)

/-- The interface `MapToCurve` with its two implementations: `*sswu` and
`*sswuAB0` (the target curve, the isogeny and the embedded mapper). -/
inductive MapToCurve (K Pt : Type) where
  | direct (s : sswu K Pt)
  | ab0 (E : W K Pt) (iso : Isogeny K Pt) (inner : MapToCurve K Pt)

/-- The method `Map` of the interface `MapToCurve`; for `*sswuAB0` it is
`m.iso.Push(m.MapToCurve.Map(u))`. -/
def MapToCurve.Map {K Pt : Type} [Field K] [DecidableEq K] :
    MapToCurve K Pt → K → Except Panic Pt
  | MapToCurve.direct s, u => s.Map u
  | MapToCurve.ab0 _ iso inner, u =>
    match inner.Map u with
    | Except.error e => Except.error e
    | Except.ok Q => Except.ok (iso.Push Q)

/-- The function `NewSSWU` on a Weierstrass curve; `iso` is `none` for a nil
isogeny constructor. -/
def NewSSWU {K Pt : Type} [Field K] [DecidableEq K] (e : W K Pt) (z : K)
    (iso : Option (Unit → Isogeny K Pt)) : Except Panic (MapToCurve K Pt) :=
  let E := e
  let cond1 := decide (E.A = 0)
  let cond2 := decide (E.B = 0)
  match iso with
  | some mk =>
    if cond1 || cond2 then
      let isogeny := mk ()
      match newSSWU isogeny.Domain z with
      | Except.error p => Except.error p
      | Except.ok s => Except.ok (MapToCurve.ab0 E isogeny (MapToCurve.direct s))
    else
      match newSSWU e z with
      | Except.error p => Except.error p
      | Except.ok s => Except.ok (MapToCurve.direct s)
  | none =>
    match newSSWU e z with
    | Except.error p => Except.error p
    | Except.ok s => Except.ok (MapToCurve.direct s)

/-! ## The orchestrators -/

/-- The struct `encodeToCurve` (the fields its methods read). -/
structure encodeToCurve (K Pt : Type) where
  Map : sswu K Pt
  E : EllCurve Pt
  Field : fieldEncoding K

/-- The struct `hashToCurve` (the fields its methods read). -/
structure hashToCurve (K Pt : Type) where
  Map : sswu K Pt
  E : EllCurve Pt
  Field : fieldEncoding K
  Isogeny : Option (Isogeny K Pt)

/-- The class of fields under a name that the struct field `Field` of the
orchestrators does not shadow. -/
abbrev BaseField (K : Type) : Type := Field K

section Orchestrators

variable {K Pt : Type} [BaseField K] [DecidableEq K]

/-- The method `(*encodeToCurve).IsRandomOracle`. -/
def encodeToCurve.IsRandomOracle (_ : encodeToCurve K Pt) : Bool := false

/-- The method `(*encodeToCurve).Hash`. -/
def encodeToCurve.Hash (s : encodeToCurve K Pt) (msg : List Nat) : Except Panic Pt :=
  match s.Field.hashToField msg 1 with
  | Except.error e => Except.error e
  | Except.ok [] => Except.error Panic.outOfRange
  | Except.ok (u0 :: _) =>
    match s.Map.Map u0 with
    | Except.error e => Except.error e
    | Except.ok Q => Except.ok (s.E.ClearCofactor Q)

/-- The method `(*hashToCurve).IsRandomOracle`. -/
def hashToCurve.IsRandomOracle (_ : hashToCurve K Pt) : Bool := true

/-- The method `(*hashToCurve).Hash`. -/
def hashToCurve.Hash (s : hashToCurve K Pt) (msg : List Nat) : Except Panic Pt :=
  match s.Field.hashToField msg 2 with
  | Except.error e => Except.error e
  | Except.ok [] => Except.error Panic.outOfRange
  | Except.ok [_] => Except.error Panic.outOfRange
  | Except.ok (u0 :: u1 :: _) =>
    match s.Map.Map u0 with
    | Except.error e => Except.error e
    | Except.ok Q0 =>
      match s.Map.Map u1 with
      | Except.error e => Except.error e
      | Except.ok Q1 =>
        let R := s.E.Add Q0 Q1
        Except.ok (s.E.ClearCofactor R)

end Orchestrators

/-! ## Concrete instances for evaluation -/

/-- A toy hash for concrete evaluation: four bytes computed from the sum and the
number of the input bytes. -/
def toyHash : HashAlg :=
  { Size := 4
    BlockSize := 2
    digest := fun x =>
      [x.sum % 256, (x.sum + 1) % 256, (2 * x.sum) % 256, (x.sum + 7 * x.length) % 256] }

/-- The prime field with eleven elements. -/
abbrev F11 : Type := ZMod 11

instance fact_prime_eleven : Fact (Nat.Prime 11) := ⟨by norm_num⟩

/-- The field collaborator for `F11`: inversion by Fermat's little theorem
(refusing zero), squares and roots by search, and the parity of the
representative as sign. -/
def gf11 : GField F11 :=
  { Ext := 1
    P := 11
    Elt := fun v => ((v.headD 0 : Nat) : F11)
    Inv := fun a => if a = 0 then Except.error Panic.arithmetic else Except.ok (a ^ 9)
    IsSquare := fun a => decide (∃ r : F11, r * r = a)
    Sqrt := fun a => ((List.finRange 11).find? (fun r : F11 => decide (r * r = a))).getD 0
    Sgn0 := fun a => ((ZMod.val a % 2 : Nat) : Int) }

/-- The points of the toy curves: affine coordinates, or the point at
infinity. -/
abbrev Pt11 : Type := Option (F11 × F11)

/-- The curve `y^2 = x^3 + x + 2` over `F11`. -/
def curve11 : W F11 Pt11 :=
  { F := gf11, A := 1, B := 2, NewPoint := fun x y => some (x, y) }

/-- An `sswu` for `curve11` with `Z = 2`. -/
def sswu11 : sswu F11 Pt11 := { E := curve11, Z := 2, c1 := some 9, c2 := some 5 }

/-- An `sswu` for `curve11` built as a struct literal with the square `Z = 1`,
the way the test file builds its mapper, without `newSSWU`. -/
def sswu11Unchecked : sswu F11 Pt11 := { E := curve11, Z := 1, c1 := none, c2 := none }

/-- A `fieldEncoding` over `F11` fed by the toy expander, two bytes per
coordinate. -/
def fieldEncoding11 : fieldEncoding F11 :=
  { F := gf11, Exp := (expanderXMD.mk toyHash [1, 2]).toExpander, L := 2 }

/-- Addition and cofactor clearing for the toy orchestrators: a placeholder
group law that keeps the first finite point, and a trivial cofactor. -/
def ellCurve11 : EllCurve Pt11 :=
  { Add := fun P Q => if P.isSome then P else Q, ClearCofactor := fun P => P }

/-- A `hashToCurve` over the toy instances. -/
def hashToCurve11 : hashToCurve F11 Pt11 :=
  { Map := sswu11, E := ellCurve11, Field := fieldEncoding11, Isogeny := none }

/-- An `encodeToCurve` over the toy instances. -/
def encodeToCurve11 : encodeToCurve F11 Pt11 :=
  { Map := sswu11, E := ellCurve11, Field := fieldEncoding11 }

/-! ## The published construction and the closed form of the map -/

/-- The tag as the published `expand_message_xmd` feeds it to every hash call:
`DST_prime = DST || I2OSP(len(DST), 1)`. -/
def dstPrime (dst : List Nat) : List Nat := dst ++ [dst.length]

/-- The published `expand_message_xmd`: the blocks of `specExpand`, every hash
input ending with `DST_prime`. -/
def rfcExpand (H : HashAlg) (dst msg : List Nat) (n : Nat) : List Nat :=
  specExpand H (dstPrime dst) msg n

/-- The first candidate abscissa of the Simplified SWU map in closed form:
with `t = Z^2 * u^4 + Z * u^2`, it is `(-B/A) * (1 + 1/t)` when `t ≠ 0` and
`B / (Z * A)` when `t = 0`. -/
def specX1 {K : Type} [Field K] [DecidableEq K] (A B Z u : K) : K :=
  let t := Z ^ 2 * u ^ 4 + Z * u ^ 2
  if t = 0 then B / (Z * A) else (-B / A) * (1 + 1 / t)

/-! ## A second toy field, with an isogeny onto a degenerate curve -/

/-- The prime field with seven elements. -/
abbrev F7 : Type := ZMod 7

instance fact_prime_seven : Fact (Nat.Prime 7) := ⟨by norm_num⟩

/-- The field collaborator for `F7`, built like `gf11`. -/
def gf7 : GField F7 :=
  { Ext := 1
    P := 7
    Elt := fun v => ((v.headD 0 : Nat) : F7)
    Inv := fun a => if a = 0 then Except.error Panic.arithmetic else Except.ok (a ^ 5)
    IsSquare := fun a => decide (∃ r : F7, r * r = a)
    Sqrt := fun a => ((List.finRange 7).find? (fun r : F7 => decide (r * r = a))).getD 0
    Sgn0 := fun a => ((ZMod.val a % 2 : Nat) : Int) }

/-- Points over `F7`: affine coordinates, or the point at infinity. -/
abbrev Pt7 : Type := Option (F7 × F7)

/-- The chord-and-tangent addition on `y^2 = x^3 + a*x + b` over `F7`. -/
def weierstrassAdd7 (a : F7) : Pt7 → Pt7 → Pt7
  | none, Q => Q
  | some P, none => some P
  | some (x1, y1), some (x2, y2) =>
    if x1 = x2 then
      if y1 + y2 = 0 then none
      else
        let l := (3 * x1 * x1 + a) * (2 * y1) ^ 5
        let x3 := l * l - x1 - x2
        some (x3, l * (x1 - x3) - y1)
    else
      let l := (y2 - y1) * (x2 - x1) ^ 5
      let x3 := l * l - x1 - x2
      some (x3, l * (x1 - x3) - y1)

/-- Scalar multiplication by repeated addition. -/
def scalarMul7 (a : F7) : Nat → Pt7 → Pt7
  | 0, _ => none
  | n + 1, P => weierstrassAdd7 a P (scalarMul7 a n P)

/-- Membership in `y^2 = x^3 + a*x + b` over `F7`. -/
def onCurve7 (a b : F7) : Pt7 → Bool
  | none => true
  | some (x, y) => decide (y ^ 2 = x ^ 3 + a * x + b)

/-- The curve `y^2 = x^3 + 3*x + 1` over `F7`; its group is cyclic of order
twelve. -/
def curve7 : W F7 Pt7 :=
  { F := gf7, A := 3, B := 1, NewPoint := fun x y => some (x, y) }

/-- The degenerate curve `y^2 = x^3 + 1` over `F7` (`A = 0`). -/
def target7 : W F7 Pt7 :=
  { F := gf7, A := 0, B := 1, NewPoint := fun x y => some (x, y) }

/-- The isogeny of degree two from `curve7` onto `target7` with kernel
generated by `(4, 0)`: `(x, y) ↦ (x + 2/(x-4), y * (1 - 2/(x-4)^2))`. -/
def isogeny7 : Isogeny F7 Pt7 :=
  { Domain := curve7
    Push := fun P =>
      match P with
      | none => none
      | some (x, y) =>
        if x = 4 then none
        else
          let d := (x - 4) ^ 5
          some (x + 2 * d, y * (1 - 2 * d * d)) }

/-- An `sswu` for `curve7` with `Z = 3`, as `newSSWU` returns it. -/
def sswu7 : sswu F7 Pt7 := { E := curve7, Z := 3, c1 := some 2, c2 := some 2 }

/-- A `fieldEncoding` over `F7` fed by the toy expander. -/
def fieldEncoding7 : fieldEncoding F7 :=
  { F := gf7, Exp := (expanderXMD.mk toyHash [1, 2]).toExpander, L := 2 }

/-- The group law and cofactor clearing (cofactor four) of `curve7`. -/
def ellCurve7 : EllCurve Pt7 :=
  { Add := weierstrassAdd7 3, ClearCofactor := scalarMul7 3 4 }

/-- The group law and cofactor clearing (cofactor four) of `target7`. -/
def ellTarget7 : EllCurve Pt7 :=
  { Add := weierstrassAdd7 0, ClearCofactor := scalarMul7 0 4 }

/-- A `hashToCurve` onto `curve7` itself, with the direct mapper. -/
def hashToCurve7 : hashToCurve F7 Pt7 :=
  { Map := sswu7, E := ellCurve7, Field := fieldEncoding7, Isogeny := none }

/-- An `encodeToCurve` onto `curve7` itself, with the direct mapper. -/
def encodeToCurve7 : encodeToCurve F7 Pt7 :=
  { Map := sswu7, E := ellCurve7, Field := fieldEncoding7 }

/-- A `hashToCurve` configured for the degenerate `target7`: the mapper works
on the isogenous `curve7`, the curve operations are those of `target7`, and
the isogeny is `isogeny7`. -/
def hashToCurveIso7 : hashToCurve F7 Pt7 :=
  { Map := sswu7, E := ellTarget7, Field := fieldEncoding7, Isogeny := some isogeny7 }

/-- A `fieldEncoding` over `F11` whose `L` is `2 ^ 63`: for two elements the
product `count * m * L` is `2 ^ 64`, which a `uint` cannot hold. -/
def fieldEncodingWide : fieldEncoding F11 :=
  { F := gf11, Exp := (expanderXMD.mk toyHash [1, 2]).toExpander, L := 2 ^ 63 }

/-! # Theorems -/

/-! ## The expander: auxiliary facts -/

theorem xor_eq_zipWith : ∀ (a b : List Nat), a.length ≤ b.length →
    xor a b = Except.ok (List.zipWith (fun x y => x ^^^ y) a b)
  | [], _, _ => by simp [xor]
  | _ :: _, [], h => by simp at h
  | x :: a, y :: b, h => by
    have ih := xor_eq_zipWith a b (by simpa using h)
    simp [xor, ih]

theorem specBlock_length (H : HashAlg) (hH : H.WellFormed) (dst b0 : List Nat)
    (hb0 : b0.length = H.Size) (i : Nat) : (specBlock H dst b0 i).length = H.Size := by
  match i with
  | 0 => simpa [specBlock] using hb0
  | 1 => simp [specBlock, hH.1]
  | i + 2 => simp [specBlock, hH.1]

theorem expandLoop_eq (H : HashAlg) (hH : H.WellFormed) (dst b0 : List Nat)
    (hb0 : b0.length = H.Size) :
    ∀ (k j : Nat) (s : HashState) (pseudo : List Nat), j + 2 + k ≤ 256 →
      (expandLoop H dst b0 k (j + 2) s (specBlock H dst b0 (j + 1)) pseudo).1 =
        Except.ok (pseudo ++
          ((List.range k).map (fun t => specBlock H dst b0 (j + 2 + t))).flatten) := by
  intro k
  induction k with
  | zero => intro j s pseudo _; simp [expandLoop]
  | succ k ih =>
    intro j s pseudo hk
    have hx : xor (specBlock H dst b0 (j + 1)) b0 =
        Except.ok (List.zipWith (fun x y => x ^^^ y) (specBlock H dst b0 (j + 1)) b0) :=
      xor_eq_zipWith _ _ (by rw [specBlock_length H hH dst b0 hb0, hb0])
    have hmod : (j + 2) % 256 = j + 2 := Nat.mod_eq_of_lt (by omega)
    have hblk : H.digest (List.zipWith (fun x y => x ^^^ y) (specBlock H dst b0 (j + 1)) b0
        ++ [j + 2] ++ dst) = specBlock H dst b0 (j + 1 + 1) := by
      simp [specBlock]
    simp only [expandLoop, hx, HashState.Reset, HashState.Write, HashState.Sum, hmod,
      List.nil_append, List.append_assoc] at hblk ⊢
    rw [hblk]
    have := ih (j + 1) ⟨[] ++ (List.zipWith (fun x y => x ^^^ y) (specBlock H dst b0 (j + 1)) b0
        ++ ([j + 2] ++ dst)), s.ops ++ [HashOp.reset] ++
          [HashOp.write (List.zipWith (fun x y => x ^^^ y) (specBlock H dst b0 (j + 1)) b0)] ++
          [HashOp.write [j + 2]] ++ [HashOp.write dst] ++ [HashOp.sum]⟩
        (pseudo ++ specBlock H dst b0 (j + 1 + 1)) (by omega)
    simp only [List.nil_append, List.append_assoc] at this
    rw [this, List.range_succ_eq_map]
    simp only [List.map_cons, List.flatten_cons, List.map_map, Function.comp_def,
      List.append_assoc, Nat.add_zero]
    have hidx : ∀ t, j + 2 + Nat.succ t = j + 1 + 2 + t := by intro t; omega
    simp only [hidx]


theorem libStr_eq (n : Nat) (hn : n ≤ 65535) :
    libStr n = I2OSP2 n := by
  have h1 : ∀ x : Nat, x &&& 0xFF = x % 256 := fun x => Nat.and_pow_two_sub_one_eq_mod x 8
  have h2 : n >>> 8 = n / 256 := Nat.shiftRight_eq_div_pow n 8
  simp only [libStr, h1, h2, I2OSP2]
  congr 1
  · omega
  · congr 1; omega

theorem ell_eq (b n : Nat) (hb : 0 < b) (hb2 : b < 2 ^ 63) (hn : n ≤ 65535) :
    wrap (n + wrap (b - 1)) / b = specEll b n := by
  unfold wrap uintSize specEll
  have h1 : (b - 1) % 2 ^ 64 = b - 1 := Nat.mod_eq_of_lt (by omega)
  have h2 : (n + (b - 1)) % 2 ^ 64 = n + b - 1 := by
    rw [Nat.mod_eq_of_lt (by omega)]; omega
  rw [h1, h2]


theorem expandLoop_fst (H : HashAlg) (hH : H.WellFormed) (dst b0 : List Nat)
    (hb0 : b0.length = H.Size) (k : Nat) (hk : k + 2 ≤ 256) (s : HashState)
    (pseudo : List Nat) :
    (expandLoop H dst b0 k 2 s (H.digest (b0 ++ [1] ++ dst)) pseudo).1 =
      Except.ok (pseudo ++
          ((List.range k).map (fun t => specBlock H dst b0 (2 + t))).flatten) := by
  have h := expandLoop_eq H hH dst b0 hb0 k 0 s pseudo (by omega)
  simpa only [Nat.zero_add, specBlock] using h

theorem blocks_length (H : HashAlg) (hH : H.WellFormed) (dst b0 : List Nat)
    (hb0 : b0.length = H.Size) (f : Nat → Nat) (k : Nat) :
    (((List.range k).map (fun t => specBlock H dst b0 (f t))).flatten).length = k * H.Size := by
  induction k with
  | zero => simp
  | succ k ih =>
    rw [List.range_succ, List.map_append, List.flatten_append, List.length_append, ih]
    simp [specBlock_length H hH dst b0 hb0, Nat.succ_mul]

theorem specEll_mul_ge (b n : Nat) (hb : 0 < b) : n ≤ specEll b n * b := by
  unfold specEll
  have h := Nat.div_add_mod (n + b - 1) b
  have h2 := Nat.mod_lt (n + b - 1) hb
  have h3 : (n + b - 1) / b * b = b * ((n + b - 1) / b) := Nat.mul_comm _ _
  omega

theorem take_blocks (H : HashAlg) (hH : H.WellFormed) (dst b0 : List Nat)
    (hb0 : b0.length = H.Size) (n : Nat) (hb : 0 < H.Size) :
    n ≤ (H.digest (b0 ++ [1] ++ dst) ++ ((List.range (specEll H.Size n - 1)).map
        (fun t => specBlock H dst b0 (2 + t))).flatten).length ∧
    (H.digest (b0 ++ [1] ++ dst) ++ ((List.range (specEll H.Size n - 1)).map
        (fun t => specBlock H dst b0 (2 + t))).flatten).take n =
      (((List.range (specEll H.Size n)).map
        (fun k => specBlock H dst b0 (k + 1))).flatten).take n := by
  have hge := specEll_mul_ge H.Size n hb
  rcases hm : specEll H.Size n with _ | m
  · rw [hm] at hge
    have hn0 : n = 0 := by omega
    subst hn0
    simp
  · rw [hm] at hge
    have hidx : ∀ t, 2 + t = Nat.succ t + 1 := by intro t; omega
    have hlen := blocks_length H hH dst b0 hb0 (fun t => 2 + t) m
    constructor
    · rw [List.length_append, Nat.add_sub_cancel, hlen, hH.1]
      rw [Nat.succ_mul] at hge
      omega
    · rw [List.range_succ_eq_map]
      simp only [List.map_cons, List.flatten_cons, List.map_map, Function.comp_def,
        Nat.add_sub_cancel, hidx, Nat.zero_add, specBlock]

theorem Expand_accept (e : expanderXMD) (msg : List Nat) (n : Nat)
    (hH : e.id.WellFormed) (hb : 0 < e.id.Size) (hn : n ≤ 65535)
    (hell : specEll e.id.Size n ≤ 255) (hdst : e.dst.length ≤ 255) :
    (e.Expand msg n).1 = Except.ok (specExpand e.id e.dst msg n) := by
  have hb0 : (specB0 e.id e.dst msg n).length = e.id.Size := hH.1 _
  have key := expandLoop_fst e.id hH e.dst (specB0 e.id e.dst msg n) hb0
    (specEll e.id.Size n - 1) (by omega)
  have hcond : ¬ (specEll e.id.Size n > 255 ∨ n > 65535 ∨ e.dst.length > 255) := by omega
  unfold expanderXMD.Expand
  simp only [Nat.ne_of_gt hb, if_false, ell_eq e.id.Size n hb hH.2 hn, hcond, libStr_eq n hn,
    HashState.New, HashState.Reset, HashState.Write, HashState.Sum, List.nil_append]
  split
  · rename_i p s heq
    have h := congrArg Prod.fst heq
    simp only [specB0] at key
    simp only [key] at h
    cases h
  · rename_i pseudo s heq
    have h := congrArg Prod.fst heq
    simp only [specB0] at key
    simp only [key] at h
    have hp : pseudo = _ := (Except.ok.inj h).symm
    obtain ⟨hlen, htake⟩ := take_blocks e.id hH e.dst
      (e.id.digest (List.replicate e.id.BlockSize 0 ++ msg ++ I2OSP2 n ++ [0] ++ e.dst))
      (hH.1 _) n hb
    rw [hp, if_pos hlen, htake]
    rfl

/-! ## The expander: claims -/

theorem specExpand_length (H : HashAlg) (hH : H.WellFormed) (hb : 0 < H.Size)
    (dst msg : List Nat) (n : Nat) : (specExpand H dst msg n).length = n := by
  unfold specExpand
  have hlen := blocks_length H hH dst (specB0 H dst msg n) (hH.1 _) (fun k => k + 1)
    (specEll H.Size n)
  rw [List.length_take, hlen]
  exact Nat.min_eq_left (specEll_mul_ge H.Size n hb)

/-- C1: for a well-formed hash of output size at least one, a tag of at most
255 bytes and a length `n ≤ 65535` with `ceil(n / b) ≤ 255`, `Expand` does not
panic and returns exactly `n` bytes (the empty string for `n = 0`). -/
theorem Expand_returns_n_bytes (e : expanderXMD) (msg : List Nat) (n : Nat)
    (hH : e.id.WellFormed) (hb : 1 ≤ e.id.Size) (hdst : e.dst.length ≤ 255)
    (hn : n ≤ 65535) (hell : specEll e.id.Size n ≤ 255) :
    ∃ out, (e.Expand msg n).1 = Except.ok out ∧ out.length = n ∧ (n = 0 → out = []) := by
  refine ⟨specExpand e.id e.dst msg n, Expand_accept e msg n hH hb hn hell hdst,
    specExpand_length e.id hH hb e.dst msg n, ?_⟩
  intro h0
  subst h0
  simp [specExpand]

/-- Witness of C1 on the toy hash: six bytes are requested and returned. -/
theorem Expand_returns_n_bytes_witness :
    ∃ out, ((expanderXMD.mk toyHash [1, 2]).Expand [5] 6).1 = Except.ok out ∧
      out.length = 6 ∧ (6 = 0 → out = []) :=
  Expand_returns_n_bytes (expanderXMD.mk toyHash [1, 2]) [5] 6
    ⟨fun x => by simp [toyHash], by decide⟩ (by decide) (by decide) (by decide) (by decide)

/-- C2: `Expand` panics exactly when `ell > 255`, `n > 65535` or
`len(dst) > 255`, with `ell = ceil(n / b)`; the panic is the explicit one, and
at that moment no call has been made on the hash object. -/
theorem Expand_rejects_iff (e : expanderXMD) (msg : List Nat) (n : Nat)
    (hH : e.id.WellFormed) (hb : 1 ≤ e.id.Size) :
    ((∃ p, (e.Expand msg n).1 = Except.error p) ↔
      (specEll e.id.Size n > 255 ∨ n > 65535 ∨ e.dst.length > 255)) ∧
    (∀ p, (e.Expand msg n).1 = Except.error p →
      p = Panic.tooManyBytes ∧ (e.Expand msg n).2 = HashState.New ∧
        (e.Expand msg n).2.ops = []) := by
  by_cases hc : specEll e.id.Size n > 255 ∨ n > 65535 ∨ e.dst.length > 255
  · have hcode : wrap (n + wrap (e.id.Size - 1)) / e.id.Size > 255 ∨ n > 65535 ∨
        e.dst.length > 255 := by
      by_cases hn : n ≤ 65535
      · rw [ell_eq e.id.Size n hb hH.2 hn]; exact hc
      · exact Or.inr (Or.inl (by omega))
    have hE : e.Expand msg n = (Except.error Panic.tooManyBytes, HashState.New) := by
      unfold expanderXMD.Expand
      simp only [Nat.ne_of_gt hb, if_false, if_pos hcode]
    refine ⟨⟨fun _ => hc, fun _ => ⟨Panic.tooManyBytes, by rw [hE]⟩⟩, ?_⟩
    intro p hp
    rw [hE] at hp ⊢
    exact ⟨(Except.error.inj hp).symm, rfl, rfl⟩
  · have hacc := Expand_accept e msg n hH hb (by omega) (by omega) (by omega)
    refine ⟨⟨?_, fun h => absurd h hc⟩, ?_⟩
    · rintro ⟨p, hp⟩
      rw [hacc] at hp
      cases hp
    · intro p hp
      rw [hacc] at hp
      cases hp

/-- Witness of C2 on the toy hash with a request of 70000 bytes. -/
theorem Expand_rejects_iff_witness :
    ((∃ p, ((expanderXMD.mk toyHash [1, 2]).Expand [5] 70000).1 = Except.error p) ↔
      (specEll toyHash.Size 70000 > 255 ∨ 70000 > 65535 ∨
        (expanderXMD.mk toyHash [1, 2]).dst.length > 255)) ∧
    (∀ p, ((expanderXMD.mk toyHash [1, 2]).Expand [5] 70000).1 = Except.error p →
      p = Panic.tooManyBytes ∧
        ((expanderXMD.mk toyHash [1, 2]).Expand [5] 70000).2 = HashState.New ∧
        ((expanderXMD.mk toyHash [1, 2]).Expand [5] 70000).2.ops = []) :=
  Expand_rejects_iff (expanderXMD.mk toyHash [1, 2]) [5] 70000
    ⟨fun x => by simp [toyHash], by decide⟩ (by decide)

/-- C3: under the preconditions of `Expand`, its result is the first `n` bytes
of `b_1 || ... || b_ell` with the blocks of the specification; the two length
bytes written are the big-endian encoding of `n`, and the counter byte is `i`
itself. -/
theorem Expand_eq_specExpand (e : expanderXMD) (msg : List Nat) (n : Nat)
    (hH : e.id.WellFormed) (hb : 1 ≤ e.id.Size) (hell : specEll e.id.Size n ≤ 255)
    (hn : n ≤ 65535) (hdst : e.dst.length ≤ 255) :
    (e.Expand msg n).1 = Except.ok (specExpand e.id e.dst msg n) ∧
    (∃ hi lo, libStr n = [hi, lo] ∧ hi < 256 ∧ lo < 256 ∧ 256 * hi + lo = n) ∧
    (∀ i, i ≤ specEll e.id.Size n → i % 256 = i) := by
  refine ⟨Expand_accept e msg n hH hb hn hell hdst, ⟨n / 256, n % 256, ?_, ?_, ?_, ?_⟩, ?_⟩
  · rw [libStr_eq n hn]; rfl
  · omega
  · omega
  · omega
  · intro i hi
    exact Nat.mod_eq_of_lt (by omega)

/-- Witness of C3 on the toy hash with a request of six bytes. -/
theorem Expand_eq_specExpand_witness :
    ((expanderXMD.mk toyHash [1, 2]).Expand [5] 6).1 =
        Except.ok (specExpand toyHash [1, 2] [5] 6) ∧
    (∃ hi lo, libStr 6 = [hi, lo] ∧ hi < 256 ∧ lo < 256 ∧ 256 * hi + lo = 6) ∧
    (∀ i, i ≤ specEll toyHash.Size 6 → i % 256 = i) :=
  Expand_eq_specExpand (expanderXMD.mk toyHash [1, 2]) [5] 6
    ⟨fun x => by simp [toyHash], by decide⟩ (by decide) (by decide) (by decide) (by decide)

/-! ## Hashing to the field -/

theorem forLoop_ok {α : Type} (body : Nat → Except Panic α) (g : Nat → α) :
    ∀ (k start : Nat), (∀ i, start ≤ i → i < start + k → body i = Except.ok (g i)) →
      forLoop body k start = Except.ok ((List.range' start k).map g)
  | 0, _, _ => by simp [forLoop]
  | k + 1, start, h => by
    have h0 := h start (Nat.le_refl _) (by omega)
    have ih := forLoop_ok body g k (start + 1) (fun i h1 h2 => h i (by omega) (by omega))
    simp [forLoop, h0, ih, List.range'_succ]

theorem offset_bound (count m i j : Nat) (hi : i < count) (hj : j < m) :
    j + i * m + 1 ≤ count * m := by
  have h : (i + 1) * m ≤ count * m := Nat.mul_le_mul_right m hi
  rw [Nat.add_mul, Nat.one_mul] at h
  omega

theorem hashToFieldCoord_eq {K : Type} (f : fieldEncoding K) (pseudo : List Nat)
    (count i j : Nat) (hlen : pseudo.length = count * f.F.Ext * f.L)
    (hgo : pseudo.length < 2 ^ 63) (hp : 0 < f.F.P) (hi : i < count) (hj : j < f.F.Ext) :
    hashToFieldCoord f pseudo i j = Except.ok (specCoord f pseudo i j) := by
  have hb := offset_bound count f.F.Ext i j hi hj
  have hoff : f.L * (j + i * f.F.Ext) + f.L ≤ count * f.F.Ext * f.L := by
    have := Nat.mul_le_mul_left f.L hb
    rw [Nat.mul_add, Nat.mul_one, Nat.mul_comm f.L (count * f.F.Ext)] at this
    exact this
  have hw : wrap (f.L * wrap (j + wrap (i * f.F.Ext))) = f.L * (j + i * f.F.Ext) ∧
      wrap (f.L * (j + i * f.F.Ext) + f.L) = f.L * (j + i * f.F.Ext) + f.L := by
    rcases Nat.eq_zero_or_pos f.L with h0 | hpos
    · simp [h0, wrap]
    · have h1 : count * f.F.Ext ≤ count * f.F.Ext * f.L := Nat.le_mul_of_pos_right _ hpos
      have h2 : i * f.F.Ext < 2 ^ 64 := by omega
      have h3 : j + i * f.F.Ext < 2 ^ 64 := by omega
      have h4 : f.L * (j + i * f.F.Ext) + f.L < 2 ^ 64 := by omega
      unfold wrap uintSize
      rw [Nat.mod_eq_of_lt h2, Nat.mod_eq_of_lt h3, Nat.mod_eq_of_lt (by omega),
        Nat.mod_eq_of_lt h4]
      exact ⟨rfl, rfl⟩
  unfold hashToFieldCoord
  simp only [hw.1, hw.2, slice]
  rw [if_pos ⟨Nat.le_add_right _ _, by omega⟩]
  simp only [if_neg (Nat.ne_of_gt hp), Nat.add_sub_cancel_left]
  rfl

theorem hashToField_eq {K : Type} (f : fieldEncoding K) (msg pseudo : List Nat)
    (count : Nat) (hExp : f.Exp.Expand msg (count * f.F.Ext * f.L) = Except.ok pseudo)
    (hlen : pseudo.length = count * f.F.Ext * f.L) (hgo : pseudo.length < 2 ^ 63)
    (hp : 0 < f.F.P) :
    f.hashToField msg count =
      Except.ok ((List.range count).map (fun i => specElt f pseudo i)) := by
  have hw : wrap (wrap (count * f.F.Ext) * f.L) = count * f.F.Ext * f.L := by
    rcases Nat.eq_zero_or_pos f.L with h0 | hpos
    · simp [h0, wrap]
    · have h1 : count * f.F.Ext ≤ count * f.F.Ext * f.L := Nat.le_mul_of_pos_right _ hpos
      have h2 : count * f.F.Ext % 2 ^ 64 = count * f.F.Ext := Nat.mod_eq_of_lt (by omega)
      unfold wrap uintSize
      rw [h2, Nat.mod_eq_of_lt (by omega)]
  unfold fieldEncoding.hashToField
  simp only [hw, hExp]
  rw [forLoop_ok _ (fun i => specElt f pseudo i) count 0]
  · rw [List.range_eq_range']
  · intro i _ hi
    rw [forLoop_ok _ (fun j => specCoord f pseudo i j) f.F.Ext 0]
    · simp only [specElt, List.range_eq_range']
    · intro j _ hj
      exact hashToFieldCoord_eq f pseudo count i j hlen hgo hp (by omega) (by omega)

/-- C4: when the expander returns `count * m * L` bytes, `hashToField` returns
exactly `count` elements, the `i`-th being `F.Elt` of the coordinates
`OS2IP(pseudo[L*(j+i*m) : L*(j+i*m)+L]) mod p`, `j < m`, each below `p`; and
`Hash(msg)` is the single element of `hashToField(msg, 1)`. -/
theorem hashToField_elements {K : Type} (f : fieldEncoding K) (msg pseudo : List Nat)
    (count : Nat) (hExp : f.Exp.Expand msg (count * f.F.Ext * f.L) = Except.ok pseudo)
    (hlen : pseudo.length = count * f.F.Ext * f.L) (hgo : pseudo.length < 2 ^ 63)
    (hp : 0 < f.F.P) :
    ∃ us, f.hashToField msg count = Except.ok us ∧ us.length = count ∧
      (∀ i, i < count → us[i]? = some (f.F.Elt ((List.range f.F.Ext).map (fun j =>
        os2ip ((pseudo.drop (f.L * (j + i * f.F.Ext))).take f.L) % f.F.P)))) ∧
      (∀ i j, os2ip ((pseudo.drop (f.L * (j + i * f.F.Ext))).take f.L) % f.F.P < f.F.P) ∧
      (count = 1 → ∃ u0, us = [u0] ∧ f.Hash msg = Except.ok u0) := by
  have h := hashToField_eq f msg pseudo count hExp hlen hgo hp
  refine ⟨_, h, by simp, ?_, fun i j => Nat.mod_lt _ hp, ?_⟩
  · intro i hi
    simp [hi, specElt, specCoord]
  · intro h1
    subst h1
    have hr : List.range 1 = [0] := rfl
    rw [hr] at h ⊢
    exact ⟨specElt f pseudo 0, rfl, by simp [fieldEncoding.Hash, h]⟩

/-- Witness of C4: two elements of `F11` from four bytes of the toy expander. -/
theorem hashToField_elements_witness :
    ∃ us, fieldEncoding11.hashToField [5] 2 = Except.ok us ∧ us.length = 2 ∧
      (∀ i, i < 2 → us[i]? = some (fieldEncoding11.F.Elt
        ((List.range fieldEncoding11.F.Ext).map (fun j =>
          os2ip (([121, 122, 242, 170].drop (fieldEncoding11.L * (j + i * fieldEncoding11.F.Ext))).take
            fieldEncoding11.L) % fieldEncoding11.F.P)))) ∧
      (∀ i j, os2ip (([121, 122, 242, 170].drop
          (fieldEncoding11.L * (j + i * fieldEncoding11.F.Ext))).take fieldEncoding11.L) %
            fieldEncoding11.F.P < fieldEncoding11.F.P) ∧
      (2 = 1 → ∃ u0, us = [u0] ∧ fieldEncoding11.Hash [5] = Except.ok u0) :=
  hashToField_elements fieldEncoding11 [5] [121, 122, 242, 170] 2 rfl rfl (by decide) (by decide)

/-! ## The Simplified SWU map -/

theorem isSquare_mul_of_not {K : Type} [Field K] [Fintype K] [DecidableEq K] {a b : K} (ha : ¬IsSquare a) (hb : ¬IsSquare b) :
    IsSquare (a * b) := by
  have ha0 : a ≠ 0 := fun h => ha (h ▸ isSquare_zero)
  have hb0 : b ≠ 0 := fun h => hb (h ▸ isSquare_zero)
  rw [← quadraticChar_one_iff_isSquare (mul_ne_zero ha0 hb0), map_mul,
    quadraticChar_neg_one_iff_not_isSquare.mpr ha, quadraticChar_neg_one_iff_not_isSquare.mpr hb]
  norm_num

theorem sswu_identity {K : Type} [Field K] (A B t1 t2 : K) (hA : A ≠ 0) (ht2 : t2 ≠ 0)
    (h2 : t2 = t1 * t1 + t1) :
    (t1 * (B * (t2 + 1)) * (A * -t2)⁻¹) ^ 3 + A * (t1 * (B * (t2 + 1)) * (A * -t2)⁻¹) + B =
      t1 ^ 3 * ((B * (t2 + 1) * (A * -t2)⁻¹) ^ 3 + A * (B * (t2 + 1) * (A * -t2)⁻¹) + B) := by
  field_simp
  rw [h2]
  ring

/-- What `verify` computing `true` means, under the contract of the field. -/
theorem verify_eq_true_iff {K Pt : Type} [Field K] [DecidableEq K] (m : sswu K Pt)
    (hL : LawfulField m.E.F) :
    m.verify = Except.ok true ↔
      (m.E.A ≠ 0 ∧ m.E.B ≠ 0 ∧ ¬IsSquare m.Z ∧ m.Z ≠ -1 ∧
        IsSquare (m.E.EvalRHS ((m.Z * m.E.A)⁻¹ * m.E.B))) := by
  have hsq : ∀ a : K, m.E.F.IsSquare a = false ↔ ¬IsSquare a := by
    intro a; rw [← hL.isSquare a]; simp
  unfold sswu.verify
  by_cases hZA : m.Z * m.E.A = 0
  · have hne : ¬(m.E.A ≠ 0 ∧ m.E.B ≠ 0 ∧ ¬IsSquare m.Z ∧ m.Z ≠ -1 ∧
        IsSquare (m.E.EvalRHS ((m.Z * m.E.A)⁻¹ * m.E.B))) := by
      rintro ⟨hA, _, hZ, _, _⟩
      rcases mul_eq_zero.mp hZA with h | h
      · exact hZ (h ▸ isSquare_zero)
      · exact hA h
    refine ⟨fun h => ?_, fun h => absurd h hne⟩
    exfalso
    rcases hinv : m.E.F.Inv (m.Z * m.E.A) with e | t
    · simp [hinv] at h
    · simp only [hinv] at h
      have h1 := Except.ok.inj h
      simp only [Bool.and_eq_true, Bool.not_eq_true', decide_eq_false_iff_not, hsq] at h1
      obtain ⟨⟨⟨⟨hA, _⟩, hZ⟩, _⟩, _⟩ := h1
      rcases mul_eq_zero.mp hZA with h | h
      · exact hZ (h ▸ isSquare_zero)
      · exact hA h
  · simp only [hL.inv _ hZA]
    constructor
    · intro h
      have h1 := Except.ok.inj h
      simp only [Bool.and_eq_true, Bool.not_eq_true', decide_eq_false_iff_not, hsq,
        hL.isSquare] at h1
      obtain ⟨⟨⟨⟨hA, hB⟩, hZ⟩, hZ1⟩, hg⟩ := h1
      exact ⟨hA, hB, hZ, hZ1, hg⟩
    · rintro ⟨hA, hB, hZ, hZ1, hg⟩
      congr 1
      simp only [Bool.and_eq_true, Bool.not_eq_true', decide_eq_false_iff_not, hsq,
        hL.isSquare]
      exact ⟨⟨⟨⟨hA, hB⟩, hZ⟩, hZ1⟩, hg⟩

/-- The straight-line code of `mapCoords` in closed form, once the two
inversions are known to succeed. -/
theorem mapCoords_eq {K Pt : Type} [Field K] [DecidableEq K] (m : sswu K Pt)
    (hL : LawfulField m.E.F) (hA : m.E.A ≠ 0) (hZ : m.Z ≠ 0) (u t1 t2 t3 t4 r y1 y0 : K)
    (h1 : t1 = m.Z * (u * u)) (h2 : t2 = t1 * t1 + t1) (h3 : t3 = m.E.B * (t2 + 1))
    (h4 : t4 = m.E.A * CMov m.Z (-t2) (!decide (t2 = 0)))
    (hr : r = (t4 * t4 * t4)⁻¹ * ((t3 * t3 + m.E.A * (t4 * t4)) * t3 + m.E.B * (t4 * t4 * t4)))
    (hy1 : y1 = if m.E.F.IsSquare r then m.E.F.Sqrt r else m.E.F.Sqrt (r * m.Z))
    (hy0 : y0 = CMov (t1 * u * y1) y1 (m.E.F.IsSquare r)) :
    t4 ≠ 0 ∧ m.mapCoords u =
      Except.ok (CMov (t1 * t3) t3 (m.E.F.IsSquare r) * t4⁻¹,
        CMov (-y0) y0 (decide (m.E.F.Sgn0 u = m.E.F.Sgn0 y0))) := by
  have ht4 : t4 ≠ 0 := by
    rw [h4]
    refine mul_ne_zero hA ?_
    by_cases h : t2 = 0
    · simpa [CMov, h] using hZ
    · simp [CMov, h]
  have ht6 : t4 * t4 * t4 ≠ 0 := mul_ne_zero (mul_ne_zero ht4 ht4) ht4
  refine ⟨ht4, ?_⟩
  subst h1 h2 h3 h4
  unfold sswu.mapCoords sswu.sqrtRatio
  simp only [hL.inv _ ht6, hL.inv _ ht4, ← hr]
  by_cases hs : m.E.F.IsSquare r = true
  · simp only [hs, if_true] at hy1 hy0 ⊢
    subst hy1
    simp only [CMov, if_true] at hy0 ⊢
    subst hy0
    rfl
  · simp only [Bool.not_eq_true] at hs
    simp only [hs] at hy1 hy0 ⊢
    simp only [Bool.false_eq_true, if_false] at hy1 ⊢
    subst hy1
    simp only [CMov, Bool.false_eq_true, if_false] at hy0 ⊢
    subst hy0
    rfl

theorem ratio_eq_rhs {K : Type} [Field K] (A B t3 t4 : K) (ht4 : t4 ≠ 0) :
    (t4 * t4 * t4)⁻¹ * ((t3 * t3 + A * (t4 * t4)) * t3 + B * (t4 * t4 * t4)) =
      (t3 * t4⁻¹) ^ 3 + A * (t3 * t4⁻¹) + B := by
  field_simp
  ring

theorem CMov_neg_sq {K : Type} [Field K] (y : K) (c : Bool) :
    CMov (-y) y c * CMov (-y) y c = y * y := by
  cases c <;> simp [CMov]

/-- C5: for a finite field, a Weierstrass curve and a `Z` accepted by
`verify`, and a field collaborator that honours its contract, `Map(u)` returns
for every `u` (the exceptional ones included) a point `NewPoint(x, y)` whose
coordinates satisfy `y^2 = x^3 + A*x + B`. -/
theorem sswu_Map_on_curve {K Pt : Type} [Field K] [Fintype K] [DecidableEq K]
    (m : sswu K Pt) (hL : LawfulField m.E.F) (hv : m.verify = Except.ok true) (u : K) :
    ∃ x y, m.mapCoords u = Except.ok (x, y) ∧ m.Map u = Except.ok (m.E.NewPoint x y) ∧
      y ^ 2 = x ^ 3 + m.E.A * x + m.E.B := by
  obtain ⟨hA, hB, hZns, hZ1, hg⟩ := (verify_eq_true_iff m hL).mp hv
  have hZ : m.Z ≠ 0 := fun h => hZns (h ▸ isSquare_zero)
  obtain ⟨ht4, hmap⟩ := mapCoords_eq m hL hA hZ u _ _ _ _ _ _ _ rfl rfl rfl rfl rfl rfl rfl
  refine ⟨_, _, hmap, by simp only [sswu.Map, hmap], ?_⟩
  rw [pow_two, CMov_neg_sq]
  generalize ht1 : m.Z * (u * u) = t1 at *
  generalize ht2 : t1 * t1 + t1 = t2 at *
  generalize ht3 : m.E.B * (t2 + 1) = t3 at *
  generalize ht4' : m.E.A * CMov m.Z (-t2) (!decide (t2 = 0)) = t4 at *
  rw [ratio_eq_rhs _ _ _ _ ht4]
  generalize hrr : (t3 * t4⁻¹) ^ 3 + m.E.A * (t3 * t4⁻¹) + m.E.B = r at *
  by_cases hs : m.E.F.IsSquare r = true
  · have hsq := hL.sqrt r ((hL.isSquare r).mp hs)
    simp only [hs, CMov, if_true]
    rw [hsq, ← hrr]
  · have hns : ¬IsSquare r := fun h => hs ((hL.isSquare r).mpr h)
    simp only [Bool.not_eq_true] at hs
    have hsq := hL.sqrt (r * m.Z) (isSquare_mul_of_not hns hZns)
    have ht2ne : t2 ≠ 0 := by
      intro h0
      apply hns
      rw [← hrr, ← ht4', ← ht3, h0]
      simp only [CMov, decide_True, Bool.not_true, Bool.false_eq_true, if_false, zero_add,
        mul_one]
      have : (m.E.B * (m.E.A * m.Z)⁻¹) = (m.Z * m.E.A)⁻¹ * m.E.B := by
        rw [mul_comm m.E.A m.Z, mul_comm]
      rw [this]
      exact hg
    simp only [hs, CMov, Bool.false_eq_true, if_false]
    have hy : t1 * u * m.E.F.Sqrt (r * m.Z) * (t1 * u * m.E.F.Sqrt (r * m.Z)) =
        t1 ^ 3 * r := by
      have : t1 * u * m.E.F.Sqrt (r * m.Z) * (t1 * u * m.E.F.Sqrt (r * m.Z)) =
          t1 * t1 * (u * u) * (m.E.F.Sqrt (r * m.Z) * m.E.F.Sqrt (r * m.Z)) := by ring
      rw [this, hsq, ← ht1]
      ring
    rw [hy, ← hrr, ← ht4', ← ht3]
    simp only [CMov, ht2ne, decide_False, Bool.not_false, if_true]
    exact (sswu_identity m.E.A m.E.B t1 t2 hA ht2ne ht2.symm).symm

/-! ## The toy field, and the sign of the mapped point -/

theorem gf11_lawful : LawfulField gf11 := by
  refine ⟨?_, ?_, ?_⟩
  · intro a ha
    have h : a * a ^ 9 = 1 := by revert a; decide
    simp [gf11, ha, inv_eq_of_mul_eq_one_right h]
  · intro a
    simp only [gf11, decide_eq_true_eq, IsSquare]
    exact ⟨fun ⟨r, hr⟩ => ⟨r, hr.symm⟩, fun ⟨r, hr⟩ => ⟨r, hr.symm⟩⟩
  · intro a ha
    have h : ∀ a : F11, (∃ r : F11, a = r * r) → gf11.Sqrt a * gf11.Sqrt a = a := by decide
    exact h a ha

theorem gf11_sign : LawfulSign gf11 := by
  refine ⟨?_, ?_, ?_⟩
  · decide
  · decide
  · decide

/-- Witness of C5 on the curve `y^2 = x^3 + x + 2` over `F11` with `Z = 2`, at
`u = 4`. -/
theorem sswu_Map_on_curve_witness :
    ∃ x y, sswu11.mapCoords 4 = Except.ok (x, y) ∧
      sswu11.Map 4 = Except.ok (sswu11.E.NewPoint x y) ∧
      y ^ 2 = x ^ 3 + sswu11.E.A * x + sswu11.E.B :=
  sswu_Map_on_curve sswu11 gf11_lawful (by rfl) 4

/-- C6, counterexample: on `y^2 = x^3 + x + 2` over `F11` with `Z = 2`, which
`verify` accepts, `Map(1)` is the point `(5, 0)`; the sign of `y = 0` is `0`
and the sign of `u = 1` is `1`. -/
theorem sswu_Map_sgn0_counterexample :
    LawfulField sswu11.E.F ∧ LawfulSign sswu11.E.F ∧ sswu11.verify = Except.ok true ∧
      ∃ x y, sswu11.mapCoords 1 = Except.ok (x, y) ∧
        sswu11.Map 1 = Except.ok (sswu11.E.NewPoint x y) ∧
        sswu11.E.F.Sgn0 y ≠ sswu11.E.F.Sgn0 1 :=
  ⟨gf11_lawful, gf11_sign, rfl, 5, 0, rfl, rfl, by decide⟩

/-- C6, amended: for a curve and `Z` accepted by `verify` and a sign function
with values `0` and `1`, `Sgn0(0) = 0` and `Sgn0(-a) ≠ Sgn0(a)` for `a ≠ 0`,
the `y` returned by `Map(u)` has the sign of `u` exactly when `y ≠ 0` or
`Sgn0(u) = 0`. -/
theorem sswu_Map_sign_iff {K Pt : Type} [Field K] [DecidableEq K]
    (m : sswu K Pt) (hL : LawfulField m.E.F) (hS : LawfulSign m.E.F)
    (hv : m.verify = Except.ok true) (u : K) :
    ∃ x y, m.mapCoords u = Except.ok (x, y) ∧ m.Map u = Except.ok (m.E.NewPoint x y) ∧
      (m.E.F.Sgn0 y = m.E.F.Sgn0 u ↔ (y ≠ 0 ∨ m.E.F.Sgn0 u = 0)) := by
  obtain ⟨hA, _, hZns, _, _⟩ := (verify_eq_true_iff m hL).mp hv
  have hZ : m.Z ≠ 0 := fun h => hZns (h ▸ isSquare_zero)
  obtain ⟨_, hmap⟩ := mapCoords_eq m hL hA hZ u _ _ _ _ _ _ _ rfl rfl rfl rfl rfl rfl rfl
  refine ⟨_, _, hmap, by simp only [sswu.Map, hmap], ?_⟩
  generalize CMov _ _ (m.E.F.IsSquare _) = y0
  by_cases he : m.E.F.Sgn0 u = m.E.F.Sgn0 y0
  · simp only [CMov, he, decide_True, if_true, true_iff]
    by_cases hy : y0 = 0
    · right; rw [hy, hS.zero]
    · left; exact hy
  · simp only [CMov, he, decide_False, Bool.false_eq_true, if_false]
    by_cases hy : y0 = 0
    · subst hy
      rw [hS.zero] at he
      simp only [neg_zero, hS.zero, ne_eq, not_true_eq_false, false_or]
      exact ⟨fun h => h.symm, fun h => h.symm⟩
    · have hneg := hS.neg y0 hy
      have h1 := hS.binary u
      have h2 := hS.binary y0
      have h3 := hS.binary (-y0)
      have hyn : -y0 ≠ 0 := neg_ne_zero.mpr hy
      simp only [ne_eq, hyn, not_false_eq_true, true_or, iff_true]
      omega

/-- Witness of C6 as amended, at `u = 4` on the toy curve. -/
theorem sswu_Map_sign_iff_witness :
    ∃ x y, sswu11.mapCoords 4 = Except.ok (x, y) ∧
      sswu11.Map 4 = Except.ok (sswu11.E.NewPoint x y) ∧
      (sswu11.E.F.Sgn0 y = sswu11.E.F.Sgn0 4 ↔ (y ≠ 0 ∨ sswu11.E.F.Sgn0 4 = 0)) :=
  sswu_Map_sign_iff sswu11 gf11_lawful gf11_sign (by rfl) 4

/-! ## The orchestrators -/

/-- C7: `hashToCurve.Hash(msg)` is `E.ClearCofactor(E.Add(Map(u0), Map(u1)))`
for `[u0, u1] = Field.hashToField(msg, 2)`, the two elements coming from one
expander output of `2 * m * L` bytes and going through the same mapper; a panic
of `hashToField` or of `Map` is the panic of `Hash`; `IsRandomOracle()` is
true. -/
theorem hashToCurve_Hash_eq {K Pt : Type} [Field K] [DecidableEq K]
    (s : hashToCurve K Pt) (msg : List Nat) :
    (∀ u0 u1 Q0 Q1, s.Field.hashToField msg 2 = Except.ok [u0, u1] →
      s.Map.Map u0 = Except.ok Q0 → s.Map.Map u1 = Except.ok Q1 →
        s.Hash msg = Except.ok (s.E.ClearCofactor (s.E.Add Q0 Q1))) ∧
    (∀ pseudo, s.Field.Exp.Expand msg (2 * s.Field.F.Ext * s.Field.L) = Except.ok pseudo →
      pseudo.length = 2 * s.Field.F.Ext * s.Field.L → pseudo.length < 2 ^ 63 →
      0 < s.Field.F.P →
        s.Field.hashToField msg 2 =
          Except.ok [specElt s.Field pseudo 0, specElt s.Field pseudo 1]) ∧
    (∀ p, s.Field.hashToField msg 2 = Except.error p → s.Hash msg = Except.error p) ∧
    (∀ u0 u1 p, s.Field.hashToField msg 2 = Except.ok [u0, u1] →
      (s.Map.Map u0 = Except.error p ∨
        ((∃ Q0, s.Map.Map u0 = Except.ok Q0) ∧ s.Map.Map u1 = Except.error p)) →
        s.Hash msg = Except.error p) ∧
    s.IsRandomOracle = true := by
  refine ⟨?_, ?_, ?_, ?_, rfl⟩
  · intro u0 u1 Q0 Q1 hu h0 h1
    simp only [hashToCurve.Hash, hu, h0, h1]
  · intro pseudo hExp hlen hgo hp
    have h := hashToField_eq s.Field msg pseudo 2 hExp hlen hgo hp
    have hr : List.range 2 = [0, 1] := rfl
    rw [hr] at h
    exact h
  · intro p hu
    simp only [hashToCurve.Hash, hu]
  · intro u0 u1 p hu h
    rcases h with h0 | ⟨⟨Q0, h0⟩, h1⟩
    · simp only [hashToCurve.Hash, hu, h0]
    · simp only [hashToCurve.Hash, hu, h0, h1]

/-- Witness of C7 on the toy instances: the message `[5]` gives the elements `1`
and `5`, mapped to `(5, 0)` and `(10, 0)`. -/
theorem hashToCurve_Hash_eq_witness :
    hashToCurve11.Hash [5] = Except.ok (hashToCurve11.E.ClearCofactor
      (hashToCurve11.E.Add (some (5, 0)) (some (10, 0)))) :=
  (hashToCurve_Hash_eq hashToCurve11 [5]).1 1 5 (some (5, 0)) (some (10, 0))
    (by rfl) (by rfl) (by rfl)

/-- C8: `encodeToCurve.Hash(msg)` is `E.ClearCofactor(Map(u))` for the single
element `u` of `Field.hashToField(msg, 1)`, which comes from one expander
output of `m * L` bytes; a panic of `hashToField` or of `Map` is the panic of
`Hash`; `IsRandomOracle()` is false. -/
theorem encodeToCurve_Hash_eq {K Pt : Type} [Field K] [DecidableEq K]
    (s : encodeToCurve K Pt) (msg : List Nat) :
    (∀ u Q, s.Field.hashToField msg 1 = Except.ok [u] → s.Map.Map u = Except.ok Q →
        s.Hash msg = Except.ok (s.E.ClearCofactor Q)) ∧
    (∀ pseudo, s.Field.Exp.Expand msg (1 * s.Field.F.Ext * s.Field.L) = Except.ok pseudo →
      pseudo.length = 1 * s.Field.F.Ext * s.Field.L → pseudo.length < 2 ^ 63 →
      0 < s.Field.F.P →
        s.Field.hashToField msg 1 = Except.ok [specElt s.Field pseudo 0]) ∧
    (∀ p, s.Field.hashToField msg 1 = Except.error p → s.Hash msg = Except.error p) ∧
    (∀ u p, s.Field.hashToField msg 1 = Except.ok [u] → s.Map.Map u = Except.error p →
        s.Hash msg = Except.error p) ∧
    s.IsRandomOracle = false := by
  refine ⟨?_, ?_, ?_, ?_, rfl⟩
  · intro u Q hu h0
    simp only [encodeToCurve.Hash, hu, h0]
  · intro pseudo hExp hlen hgo hp
    have h := hashToField_eq s.Field msg pseudo 1 hExp hlen hgo hp
    have hr : List.range 1 = [0] := rfl
    rw [hr] at h
    exact h
  · intro p hu
    simp only [encodeToCurve.Hash, hu]
  · intro u p hu h0
    simp only [encodeToCurve.Hash, hu, h0]

/-- Witness of C8 on the toy instances: the message `[5]` gives the element `5`,
mapped to `(10, 0)`. -/
theorem encodeToCurve_Hash_eq_witness :
    encodeToCurve11.Hash [5] =
      Except.ok (encodeToCurve11.E.ClearCofactor (some (10, 0))) :=
  (encodeToCurve_Hash_eq encodeToCurve11 [5]).1 5 (some (10, 0)) (by rfl) (by rfl)

/-! ## Construction of the mapper -/

theorem precmp_ok {K Pt : Type} [Field K] (m : sswu K Pt) (hL : LawfulField m.E.F)
    (hA : m.E.A ≠ 0) (hZ : m.Z ≠ 0) :
    m.precmp = Except.ok
      { E := m.E, Z := m.Z, c1 := some (-(m.E.A⁻¹ * m.E.B)), c2 := some (-m.Z⁻¹) } := by
  simp only [sswu.precmp, hL.inv _ hA, hL.inv _ hZ]

theorem verify_degenerate {K Pt : Type} [Field K] [DecidableEq K] (m : sswu K Pt)
    (h : m.E.A = 0 ∨ m.E.B = 0) : m.verify ≠ Except.ok true := by
  unfold sswu.verify
  rcases hinv : m.E.F.Inv (m.Z * m.E.A) with e | t
  · simp [hinv]
  · simp only [hinv, ne_eq, Except.ok.injEq]
    rcases h with h | h <;> simp [h]

theorem newSSWU_degenerate {K Pt : Type} [Field K] [DecidableEq K] (e : W K Pt) (z : K)
    (h : e.A = 0 ∨ e.B = 0) : ∃ p, newSSWU e z = Except.error p := by
  have hv := verify_degenerate { E := e, Z := z, c1 := none, c2 := none } h
  unfold newSSWU
  rcases hr : sswu.verify { E := e, Z := z, c1 := none, c2 := none } with p | b
  · exact ⟨p, by simp [hr]⟩
  · cases b
    · exact ⟨Panic.failedRestrictions, by simp [hr]⟩
    · exact absurd hr hv

/-- C9: under the contract of the field collaborator, `newSSWU(E, Z)` returns a
mapper exactly when `A ≠ 0`, `B ≠ 0`, `Z` is a non-square, `Z ≠ -1` and
`g(B/(Z*A))` is a square; the mapper is then for `E` and `Z` with `c1 = -B/A`
and `c2 = -1/Z`; otherwise it panics. `Map` itself makes no such check: on a
struct built without `newSSWU` that `verify` rejects, it still returns a
point. -/
theorem newSSWU_ok_iff {K Pt : Type} [Field K] [DecidableEq K] (e : W K Pt) (z : K)
    (hL : LawfulField e.F) :
    ((∃ s, newSSWU e z = Except.ok s) ↔
      (e.A ≠ 0 ∧ e.B ≠ 0 ∧ ¬IsSquare z ∧ z ≠ -1 ∧
        IsSquare (e.EvalRHS ((z * e.A)⁻¹ * e.B)))) ∧
    (∀ s, newSSWU e z = Except.ok s →
      s = { E := e, Z := z, c1 := some (-(e.A⁻¹ * e.B)), c2 := some (-z⁻¹) }) ∧
    (¬(e.A ≠ 0 ∧ e.B ≠ 0 ∧ ¬IsSquare z ∧ z ≠ -1 ∧
        IsSquare (e.EvalRHS ((z * e.A)⁻¹ * e.B))) → ∃ p, newSSWU e z = Except.error p) ∧
    (sswu11Unchecked.verify = Except.ok false ∧
      sswu11Unchecked.Map 3 = Except.ok (sswu11Unchecked.E.NewPoint 8 7)) := by
  have hiff := verify_eq_true_iff { E := e, Z := z, c1 := none, c2 := none } hL
  have key : ∀ s, newSSWU e z = Except.ok s →
      (e.A ≠ 0 ∧ e.B ≠ 0 ∧ ¬IsSquare z ∧ z ≠ -1 ∧
        IsSquare (e.EvalRHS ((z * e.A)⁻¹ * e.B))) ∧
      s = { E := e, Z := z, c1 := some (-(e.A⁻¹ * e.B)), c2 := some (-z⁻¹) } := by
    intro s hs
    unfold newSSWU at hs
    rcases hr : sswu.verify { E := e, Z := z, c1 := none, c2 := none } with p | b
    · simp [hr] at hs
    · cases b
      · simp [hr] at hs
      · have hc := hiff.mp hr
        have hZ : z ≠ 0 := fun h => hc.2.2.1 (h ▸ isSquare_zero)
        simp only [hr] at hs
        rw [precmp_ok _ hL hc.1 hZ] at hs
        exact ⟨hc, (Except.ok.inj hs).symm⟩
  have mk : (e.A ≠ 0 ∧ e.B ≠ 0 ∧ ¬IsSquare z ∧ z ≠ -1 ∧
        IsSquare (e.EvalRHS ((z * e.A)⁻¹ * e.B))) → ∃ s, newSSWU e z = Except.ok s := by
    intro hc
    have hZ : z ≠ 0 := fun h => hc.2.2.1 (h ▸ isSquare_zero)
    have hr := hiff.mpr hc
    refine ⟨{ E := e, Z := z, c1 := some (-(e.A⁻¹ * e.B)), c2 := some (-z⁻¹) }, ?_⟩
    unfold newSSWU
    simp only [hr]
    exact precmp_ok _ hL hc.1 hZ
  refine ⟨⟨fun ⟨s, hs⟩ => (key s hs).1, mk⟩, fun s hs => (key s hs).2, ?_, by rfl, by rfl⟩
  intro hn
  rcases hr : newSSWU e z with p | s
  · exact ⟨p, rfl⟩
  · exact absurd (key s hr).1 hn

/-- Witness of C9: `newSSWU` on the toy curve with `Z = 2`. -/
theorem newSSWU_ok_iff_witness :
    ((∃ s, newSSWU curve11 2 = Except.ok s) ↔
      (curve11.A ≠ 0 ∧ curve11.B ≠ 0 ∧ ¬IsSquare (2 : F11) ∧ (2 : F11) ≠ -1 ∧
        IsSquare (curve11.EvalRHS ((2 * curve11.A)⁻¹ * curve11.B)))) ∧
    (∀ s, newSSWU curve11 2 = Except.ok s →
      s = { E := curve11, Z := 2, c1 := some (-(curve11.A⁻¹ * curve11.B)),
            c2 := some (-(2 : F11)⁻¹) }) ∧
    (¬(curve11.A ≠ 0 ∧ curve11.B ≠ 0 ∧ ¬IsSquare (2 : F11) ∧ (2 : F11) ≠ -1 ∧
        IsSquare (curve11.EvalRHS ((2 * curve11.A)⁻¹ * curve11.B))) →
      ∃ p, newSSWU curve11 2 = Except.error p) ∧
    (sswu11Unchecked.verify = Except.ok false ∧
      sswu11Unchecked.Map 3 = Except.ok (sswu11Unchecked.E.NewPoint 8 7)) :=
  newSSWU_ok_iff curve11 2 gf11_lawful

/-- C10: `NewSSWU(E, Z, iso)` returns the adapter `sswuAB0` around
`newSSWU(iso().Domain(), Z)` when `A = 0` or `B = 0` and `iso` is not nil, and
`newSSWU(E, Z)` in every other case; a returned mapper is an adapter exactly
under that condition; a degenerate curve without isogeny fails construction,
and a non-degenerate curve ignores the isogeny. -/
theorem NewSSWU_selects {K Pt : Type} [Field K] [DecidableEq K] (e : W K Pt) (z : K)
    (iso : Option (Unit → Isogeny K Pt)) :
    (∀ mk, iso = some mk → (e.A = 0 ∨ e.B = 0) →
      NewSSWU e z iso = (newSSWU (mk ()).Domain z).map
        (fun s => MapToCurve.ab0 e (mk ()) (MapToCurve.direct s))) ∧
    (¬((e.A = 0 ∨ e.B = 0) ∧ iso.isSome = true) →
      NewSSWU e z iso = (newSSWU e z).map (fun s => MapToCurve.direct s)) ∧
    (∀ mp, NewSSWU e z iso = Except.ok mp →
      ((∃ E1 i1 inner, mp = MapToCurve.ab0 E1 i1 inner) ↔
        ((e.A = 0 ∨ e.B = 0) ∧ iso.isSome = true))) ∧
    ((e.A = 0 ∨ e.B = 0) → iso = none → ∃ p, NewSSWU e z iso = Except.error p) ∧
    (¬(e.A = 0 ∨ e.B = 0) → NewSSWU e z iso = NewSSWU e z none) := by
  have hmapd : ∀ r : Except Panic (sswu K Pt),
      (match r with
        | Except.error p => Except.error p
        | Except.ok s => Except.ok (MapToCurve.direct s)) =
      r.map (fun s => MapToCurve.direct s) := by
    intro r; cases r <;> rfl
  have hdirect : ∀ iso1 : Option (Unit → Isogeny K Pt),
      ¬((e.A = 0 ∨ e.B = 0) ∧ iso1.isSome = true) →
      NewSSWU e z iso1 = (newSSWU e z).map (fun s => MapToCurve.direct s) := by
    intro iso1 hn
    cases iso1 with
    | none => simp only [NewSSWU, hmapd]
    | some mk =>
      have hd : ¬(e.A = 0 ∨ e.B = 0) := fun h => hn ⟨h, rfl⟩
      have hb : (decide (e.A = 0) || decide (e.B = 0)) = false := by
        simpa [not_or] using hd
      simp only [NewSSWU, hb, Bool.false_eq_true, if_false, hmapd]
  have hadapt : ∀ mk, iso = some mk → (e.A = 0 ∨ e.B = 0) →
      NewSSWU e z iso = (newSSWU (mk ()).Domain z).map
        (fun s => MapToCurve.ab0 e (mk ()) (MapToCurve.direct s)) := by
    intro mk hiso hd
    subst hiso
    have hb : (decide (e.A = 0) || decide (e.B = 0)) = true := by simpa using hd
    simp only [NewSSWU, hb, if_true]
    cases newSSWU (mk ()).Domain z <;> rfl
  refine ⟨hadapt, hdirect iso, ?_, ?_, ?_⟩
  · intro mp hmp
    by_cases hc : (e.A = 0 ∨ e.B = 0) ∧ iso.isSome = true
    · obtain ⟨hd, hs⟩ := hc
      obtain ⟨mk, rfl⟩ := Option.isSome_iff_exists.mp hs
      rw [hadapt mk rfl hd] at hmp
      refine ⟨fun _ => ⟨hd, hs⟩, fun _ => ?_⟩
      cases hr : newSSWU (mk ()).Domain z with
      | error p => rw [hr] at hmp; cases hmp
      | ok s =>
        rw [hr] at hmp
        exact ⟨e, mk (), MapToCurve.direct s, (Except.ok.inj hmp).symm⟩
    · rw [hdirect iso hc] at hmp
      refine ⟨fun ⟨E1, i1, inner, h⟩ => ?_, fun h => absurd h hc⟩
      cases hr : newSSWU e z with
      | error p => rw [hr] at hmp; cases hmp
      | ok s =>
        rw [hr] at hmp
        have := Except.ok.inj hmp
        rw [h] at this
        cases this
  · intro hd hiso
    subst hiso
    obtain ⟨p, hp⟩ := newSSWU_degenerate e z hd
    exact ⟨p, by rw [hdirect none (by simp), hp]; rfl⟩
  · intro hd
    rw [hdirect iso (fun h => hd h.1), hdirect none (by simp)]

/-! ## The isogeny adapter -/

theorem gf7_lawful : LawfulField gf7 := by
  refine ⟨?_, ?_, ?_⟩
  · intro a ha
    have h : a * a ^ 5 = 1 := by revert a; decide
    simp [gf7, ha, inv_eq_of_mul_eq_one_right h]
  · intro a
    simp only [gf7, decide_eq_true_eq, IsSquare]
    exact ⟨fun ⟨r, hr⟩ => ⟨r, hr.symm⟩, fun ⟨r, hr⟩ => ⟨r, hr.symm⟩⟩
  · intro a ha
    have h : ∀ a : F7, (∃ r : F7, a = r * r) → gf7.Sqrt a * gf7.Sqrt a = a := by decide
    exact h a ha

theorem newSSWU_of_verify {K Pt : Type} [Field K] [DecidableEq K] (e : W K Pt) (z : K)
    (hL : LawfulField e.F)
    (hv : sswu.verify { E := e, Z := z, c1 := none, c2 := none } = Except.ok true) :
    newSSWU e z =
      Except.ok { E := e, Z := z, c1 := some (-(e.A⁻¹ * e.B)), c2 := some (-z⁻¹) } := by
  obtain ⟨hA, _, hZns, _, _⟩ :=
    (verify_eq_true_iff { E := e, Z := z, c1 := none, c2 := none } hL).mp hv
  have hZ : z ≠ 0 := fun h => hZns (h ▸ isSquare_zero)
  unfold newSSWU
  simp only [hv]
  exact precmp_ok _ hL hA hZ

theorem sswu_Map_ok {K Pt : Type} [Field K] [DecidableEq K] (m : sswu K Pt)
    (hL : LawfulField m.E.F) (hA : m.E.A ≠ 0) (hZ : m.Z ≠ 0) (u : K) :
    ∃ Q, m.Map u = Except.ok Q := by
  obtain ⟨_, hmap⟩ := mapCoords_eq m hL hA hZ u _ _ _ _ _ _ _ rfl rfl rfl rfl rfl rfl rfl
  unfold sswu.Map
  rw [hmap]
  exact ⟨_, rfl⟩

theorem ab0_Map_eq {K Pt : Type} [Field K] [DecidableEq K] (e : W K Pt)
    (iso : Isogeny K Pt) (s : sswu K Pt) (u : K) (Q : Pt) (hQ : s.Map u = Except.ok Q) :
    (MapToCurve.ab0 e iso (MapToCurve.direct s)).Map u = Except.ok (iso.Push Q) := by
  simp only [MapToCurve.Map, hQ]

/-- C11: for a degenerate target curve (`A = 0` or `B = 0`) and an isogeny
whose domain passes `verify` with `Z`, `NewSSWU(E, Z, iso)` returns a mapper
whose `Map(u)` is, for every `u`, `psi.Push` of the `Map(u)` of
`newSSWU(E', Z)`, and both succeed. -/
theorem NewSSWU_Map_eq_Push {K Pt : Type} [Field K] [DecidableEq K] (e : W K Pt) (z : K)
    (mk : Unit → Isogeny K Pt) (hdeg : e.A = 0 ∨ e.B = 0)
    (hL : LawfulField (mk ()).Domain.F)
    (hv : sswu.verify { E := (mk ()).Domain, Z := z, c1 := none, c2 := none } =
      Except.ok true) :
    ∃ mp s, NewSSWU e z (some mk) = Except.ok mp ∧
      newSSWU (mk ()).Domain z = Except.ok s ∧
      ∀ u, ∃ Q, s.Map u = Except.ok Q ∧ mp.Map u = Except.ok ((mk ()).Push Q) := by
  have hs := newSSWU_of_verify (mk ()).Domain z hL hv
  have hb : (decide (e.A = 0) || decide (e.B = 0)) = true := by simpa using hdeg
  refine ⟨MapToCurve.ab0 e (mk ()) (MapToCurve.direct
    { E := (mk ()).Domain, Z := z, c1 := some (-((mk ()).Domain.A⁻¹ * (mk ()).Domain.B)),
      c2 := some (-z⁻¹) }), _, ?_, hs, ?_⟩
  · simp only [NewSSWU, hb, if_true, hs]
  · intro u
    obtain ⟨hA, _, hZns, _, _⟩ :=
      (verify_eq_true_iff { E := (mk ()).Domain, Z := z, c1 := none, c2 := none } hL).mp hv
    have hZ : z ≠ 0 := fun h => hZns (h ▸ isSquare_zero)
    obtain ⟨Q, hQ⟩ := sswu_Map_ok
      { E := (mk ()).Domain, Z := z, c1 := some (-((mk ()).Domain.A⁻¹ * (mk ()).Domain.B)),
        c2 := some (-z⁻¹) } hL hA hZ u
    exact ⟨Q, hQ, ab0_Map_eq e (mk ()) _ u Q hQ⟩

/-- Witness of C11: the degenerate `y^2 = x^3 + 1` over `F7` with the isogeny
of degree two from `y^2 = x^3 + 3*x + 1` and `Z = 3`. -/
theorem NewSSWU_Map_eq_Push_witness :
    ∃ mp s, NewSSWU target7 3 (some (fun _ => isogeny7)) = Except.ok mp ∧
      newSSWU ((fun _ => isogeny7) ()).Domain 3 = Except.ok s ∧
      ∀ u, ∃ Q, s.Map u = Except.ok Q ∧
        mp.Map u = Except.ok (((fun _ => isogeny7) ()).Push Q) :=
  NewSSWU_Map_eq_Push target7 3 (fun _ => isogeny7) (Or.inl rfl) gf7_lawful (by rfl)

/-! ## Subgroup membership of the orchestrators' outputs -/

theorem forLoop_length {α : Type} (body : Nat → Except Panic α) :
    ∀ (k start : Nat) (r : List α), forLoop body k start = Except.ok r → r.length = k
  | 0, _, r, h => by
    simp only [forLoop] at h
    rw [← Except.ok.inj h]
    rfl
  | k + 1, start, r, h => by
    simp only [forLoop] at h
    rcases hb : body start with p | a
    · simp [hb] at h
    · rcases hr : forLoop body k (start + 1) with p | r1
      · simp [hb, hr] at h
      · simp only [hb, hr] at h
        rw [← Except.ok.inj h, List.length_cons, forLoop_length body k (start + 1) r1 hr]

theorem hashToField_length {K : Type} (f : fieldEncoding K) (msg : List Nat) (count : Nat)
    (us : List K) (h : f.hashToField msg count = Except.ok us) : us.length = count := by
  unfold fieldEncoding.hashToField at h
  rcases hE : f.Exp.Expand msg (wrap (wrap (count * f.F.Ext) * f.L)) with p | pseudo
  · simp [hE] at h
  · simp only [hE] at h
    exact forLoop_length _ count 0 us h

theorem mapCoords_point {K Pt : Type} [Field K] [Fintype K] [DecidableEq K]
    (m : sswu K Pt) (hL : LawfulField m.E.F) (hv : m.verify = Except.ok true) (u : K) :
    ∃ x y, m.mapCoords u = Except.ok (x, y) ∧ y ^ 2 = x ^ 3 + m.E.A * x + m.E.B := by
  obtain ⟨hA, hB, hZns, hZ1, hg⟩ := (verify_eq_true_iff m hL).mp hv
  have hZ : m.Z ≠ 0 := fun h => hZns (h ▸ isSquare_zero)
  obtain ⟨ht4, hmap⟩ := mapCoords_eq m hL hA hZ u _ _ _ _ _ _ _ rfl rfl rfl rfl rfl rfl rfl
  refine ⟨_, _, hmap, ?_⟩
  rw [pow_two, CMov_neg_sq]
  generalize ht1 : m.Z * (u * u) = t1 at *
  generalize ht2 : t1 * t1 + t1 = t2 at *
  generalize ht3 : m.E.B * (t2 + 1) = t3 at *
  generalize ht4' : m.E.A * CMov m.Z (-t2) (!decide (t2 = 0)) = t4 at *
  rw [ratio_eq_rhs _ _ _ _ ht4]
  generalize hrr : (t3 * t4⁻¹) ^ 3 + m.E.A * (t3 * t4⁻¹) + m.E.B = r at *
  by_cases hs : m.E.F.IsSquare r = true
  · have hsq := hL.sqrt r ((hL.isSquare r).mp hs)
    simp only [hs, CMov, if_true]
    rw [hsq, ← hrr]
  · have hns : ¬IsSquare r := fun h => hs ((hL.isSquare r).mpr h)
    simp only [Bool.not_eq_true] at hs
    have hsq := hL.sqrt (r * m.Z) (isSquare_mul_of_not hns hZns)
    have ht2ne : t2 ≠ 0 := by
      intro h0
      apply hns
      rw [← hrr, ← ht4', ← ht3, h0]
      simp only [CMov, decide_True, Bool.not_true, Bool.false_eq_true, if_false, zero_add,
        mul_one]
      have : (m.E.B * (m.E.A * m.Z)⁻¹) = (m.Z * m.E.A)⁻¹ * m.E.B := by
        rw [mul_comm m.E.A m.Z, mul_comm]
      rw [this]
      exact hg
    simp only [hs, CMov, Bool.false_eq_true, if_false]
    have hy : t1 * u * m.E.F.Sqrt (r * m.Z) * (t1 * u * m.E.F.Sqrt (r * m.Z)) =
        t1 ^ 3 * r := by
      have : t1 * u * m.E.F.Sqrt (r * m.Z) * (t1 * u * m.E.F.Sqrt (r * m.Z)) =
          t1 * t1 * (u * u) * (m.E.F.Sqrt (r * m.Z) * m.E.F.Sqrt (r * m.Z)) := by ring
      rw [this, hsq, ← ht1]
      ring
    rw [hy, ← hrr, ← ht4', ← ht3]
    simp only [CMov, ht2ne, decide_False, Bool.not_false, if_true]
    exact (sswu_identity m.E.A m.E.B t1 t2 hA ht2ne ht2.symm).symm

theorem sswu_Map_point {K Pt : Type} [Field K] [Fintype K] [DecidableEq K]
    (m : sswu K Pt) (hL : LawfulField m.E.F) (hv : m.verify = Except.ok true) (u : K) :
    ∃ x y, m.Map u = Except.ok (m.E.NewPoint x y) ∧ y ^ 2 = x ^ 3 + m.E.A * x + m.E.B := by
  obtain ⟨x, y, hxy, hc⟩ := mapCoords_point m hL hv u
  exact ⟨x, y, by simp only [sswu.Map, hxy], hc⟩

/-- C12: when the mapper of each orchestrator satisfies the applicability
preconditions over the target curve, `Add` is closed on the curve and
`ClearCofactor` sends every point of the curve to a point that the subgroup
order `r` annihilates, every output `P` of `hashToCurve.Hash` and of
`encodeToCurve.Hash` satisfies `r * P = O`; and an output exists whenever
`hashToField` returns. -/
theorem orchestrators_in_subgroup {K Pt : Type} [Field K] [Fintype K] [DecidableEq K]
    (sh : hashToCurve K Pt) (se : encodeToCurve K Pt)
    (OnCurve : Pt → Prop) (smul : Nat → Pt → Pt) (r : Nat) (O : Pt)
    (hLh : LawfulField sh.Map.E.F) (hvh : sh.Map.verify = Except.ok true)
    (hNewh : ∀ x y : K, y ^ 2 = x ^ 3 + sh.Map.E.A * x + sh.Map.E.B →
      OnCurve (sh.Map.E.NewPoint x y))
    (hAddh : ∀ P Q, OnCurve P → OnCurve Q → OnCurve (sh.E.Add P Q))
    (hCCh : ∀ P, OnCurve P → smul r (sh.E.ClearCofactor P) = O)
    (hLe : LawfulField se.Map.E.F) (hve : se.Map.verify = Except.ok true)
    (hNewe : ∀ x y : K, y ^ 2 = x ^ 3 + se.Map.E.A * x + se.Map.E.B →
      OnCurve (se.Map.E.NewPoint x y))
    (hCCe : ∀ P, OnCurve P → smul r (se.E.ClearCofactor P) = O)
    (msg : List Nat) :
    (∀ P, sh.Hash msg = Except.ok P → smul r P = O) ∧
    (∀ P, se.Hash msg = Except.ok P → smul r P = O) ∧
    ((∃ us, sh.Field.hashToField msg 2 = Except.ok us) → ∃ P, sh.Hash msg = Except.ok P) ∧
    ((∃ us, se.Field.hashToField msg 1 = Except.ok us) → ∃ P, se.Hash msg = Except.ok P) := by
  have keyh : ∀ us, sh.Field.hashToField msg 2 = Except.ok us →
      ∃ P, sh.Hash msg = Except.ok P ∧ smul r P = O := by
    intro us hus
    have hlen := hashToField_length sh.Field msg 2 us hus
    match us, hlen with
    | [u0, u1], _ =>
      obtain ⟨x0, y0, hQ0, hc0⟩ := sswu_Map_point sh.Map hLh hvh u0
      obtain ⟨x1, y1, hQ1, hc1⟩ := sswu_Map_point sh.Map hLh hvh u1
      refine ⟨sh.E.ClearCofactor (sh.E.Add (sh.Map.E.NewPoint x0 y0)
        (sh.Map.E.NewPoint x1 y1)), by simp only [hashToCurve.Hash, hus, hQ0, hQ1], ?_⟩
      exact hCCh _ (hAddh _ _ (hNewh x0 y0 hc0) (hNewh x1 y1 hc1))
  have keye : ∀ us, se.Field.hashToField msg 1 = Except.ok us →
      ∃ P, se.Hash msg = Except.ok P ∧ smul r P = O := by
    intro us hus
    have hlen := hashToField_length se.Field msg 1 us hus
    match us, hlen with
    | [u0], _ =>
      obtain ⟨x0, y0, hQ0, hc0⟩ := sswu_Map_point se.Map hLe hve u0
      refine ⟨se.E.ClearCofactor (se.Map.E.NewPoint x0 y0),
        by simp only [encodeToCurve.Hash, hus, hQ0], ?_⟩
      exact hCCe _ (hNewe x0 y0 hc0)
  refine ⟨?_, ?_, ?_, ?_⟩
  · intro P hP
    rcases hu : sh.Field.hashToField msg 2 with p | us
    · simp [hashToCurve.Hash, hu] at hP
    · obtain ⟨P1, hP1, hs⟩ := keyh us hu
      rw [hP1] at hP
      rw [← Except.ok.inj hP]
      exact hs
  · intro P hP
    rcases hu : se.Field.hashToField msg 1 with p | us
    · simp [encodeToCurve.Hash, hu] at hP
    · obtain ⟨P1, hP1, hs⟩ := keye us hu
      rw [hP1] at hP
      rw [← Except.ok.inj hP]
      exact hs
  · rintro ⟨us, hus⟩
    obtain ⟨P, hP, _⟩ := keyh us hus
    exact ⟨P, hP⟩
  · rintro ⟨us, hus⟩
    obtain ⟨P, hP, _⟩ := keye us hus
    exact ⟨P, hP⟩

set_option maxRecDepth 100000 in
theorem curve7_add_closed : ∀ P Q : Pt7, onCurve7 3 1 P = true → onCurve7 3 1 Q = true →
    onCurve7 3 1 (weierstrassAdd7 3 P Q) = true := by
  decide

set_option maxRecDepth 100000 in
theorem curve7_clear : ∀ P : Pt7, onCurve7 3 1 P = true →
    scalarMul7 3 3 (scalarMul7 3 4 P) = none := by
  decide

/-- Witness of C12: the two orchestrators onto `y^2 = x^3 + 3*x + 1` over `F7`,
whose group has order twelve; the cofactor is four and the subgroup order is
three. -/
theorem orchestrators_in_subgroup_witness :
    (∀ P, hashToCurve7.Hash [6] = Except.ok P → scalarMul7 3 3 P = none) ∧
    (∀ P, encodeToCurve7.Hash [6] = Except.ok P → scalarMul7 3 3 P = none) ∧
    ((∃ us, hashToCurve7.Field.hashToField [6] 2 = Except.ok us) →
      ∃ P, hashToCurve7.Hash [6] = Except.ok P) ∧
    ((∃ us, encodeToCurve7.Field.hashToField [6] 1 = Except.ok us) →
      ∃ P, encodeToCurve7.Hash [6] = Except.ok P) :=
  orchestrators_in_subgroup hashToCurve7 encodeToCurve7 (fun P => onCurve7 3 1 P = true)
    (scalarMul7 3) 3 none gf7_lawful (by rfl)
    (fun x y h => by simpa [onCurve7, hashToCurve7, sswu7, curve7] using h)
    curve7_add_closed curve7_clear gf7_lawful (by rfl)
    (fun x y h => by simpa [onCurve7, encodeToCurve7, sswu7, curve7] using h)
    curve7_clear [6]

/-! ## The expander against the published construction and the protocol limits -/

/-- C13, counterexample: with the toy hash, the tag `[1, 2]`, the message `[5]`
and six bytes requested, `Expand` differs from the published construction,
whose hash inputs end with `[1, 2, 2]`. -/
theorem Expand_rfc_counterexample :
    (expanderXMD.mk toyHash [1, 2]).dst.length ≤ 255 ∧
    ∃ out, ((expanderXMD.mk toyHash [1, 2]).Expand [5] 6).1 = Except.ok out ∧
      out ≠ rfcExpand toyHash [1, 2] [5] 6 :=
  ⟨by decide, [131, 132, 6, 180, 41, 42], by rfl, by decide⟩

/-- C13, amended: `Expand` feeds its stored tag to every hash call as it is,
so its output is the construction whose hash inputs end with `e.dst`; it is
the published output for a tag `DST` of at most 254 bytes when the stored tag
is `DST || I2OSP(len(DST), 1)`. -/
theorem Expand_eq_rfcExpand_of_dstPrime (H : HashAlg) (dst msg : List Nat) (n : Nat)
    (hH : H.WellFormed) (hb : 1 ≤ H.Size) (hell : specEll H.Size n ≤ 255)
    (hn : n ≤ 65535) (hdst : dst.length ≤ 254) :
    ((expanderXMD.mk H (dstPrime dst)).Expand msg n).1 = Except.ok (rfcExpand H dst msg n) ∧
    ((expanderXMD.mk H dst).Expand msg n).1 = Except.ok (specExpand H dst msg n) := by
  constructor
  · have hlen : (expanderXMD.mk H (dstPrime dst)).dst.length ≤ 255 := by
      simp only [dstPrime, List.length_append, List.length_singleton]
      omega
    exact Expand_accept (expanderXMD.mk H (dstPrime dst)) msg n hH hb hn hell hlen
  · exact Expand_accept (expanderXMD.mk H dst) msg n hH hb hn hell (by simp only; omega)

/-- Witness of C13 as amended, on the toy hash. -/
theorem Expand_eq_rfcExpand_of_dstPrime_witness :
    ((expanderXMD.mk toyHash (dstPrime [1, 2])).Expand [5] 6).1 =
      Except.ok (rfcExpand toyHash [1, 2] [5] 6) ∧
    ((expanderXMD.mk toyHash [1, 2]).Expand [5] 6).1 =
      Except.ok (specExpand toyHash [1, 2] [5] 6) :=
  Expand_eq_rfcExpand_of_dstPrime toyHash [1, 2] [5] 6
    ⟨fun x => by simp [toyHash], by decide⟩ (by decide) (by decide) (by decide) (by decide)

set_option maxRecDepth 100000 in
/-- C14, counterexample: a message of 256 bytes is accepted; `Expand` returns
the six bytes requested. -/
theorem Expand_long_message_counterexample :
    (List.replicate 256 7).length > 255 ∧
    ∃ out, ((expanderXMD.mk toyHash [1, 2]).Expand (List.replicate 256 7) 6).1 =
      Except.ok out ∧ out.length = 6 :=
  ⟨by simp, [99, 100, 198, 148, 95, 96], by rfl, by rfl⟩

theorem Expand_reject_dst_or_n (e : expanderXMD) (msg : List Nat) (n : Nat)
    (h : e.dst.length > 255 ∨ n > 65535) :
    (∃ p, (e.Expand msg n).1 = Except.error p) ∧ (e.Expand msg n).2 = HashState.New := by
  unfold expanderXMD.Expand
  by_cases hb : e.id.Size = 0
  · simp only [hb, if_true]
    exact ⟨⟨_, rfl⟩, trivial⟩
  · have hc : wrap (n + wrap (e.id.Size - 1)) / e.id.Size > 255 ∨ n > 65535 ∨
        e.dst.length > 255 := by
      rcases h with h | h
      · exact Or.inr (Or.inr h)
      · exact Or.inr (Or.inl h)
    simp only [hb, if_false, if_pos hc]
    exact ⟨⟨_, rfl⟩, trivial⟩

/-- C14, amended: the limits on the tag (255 bytes) and on the output length
(65535 bytes) are enforced: when either is exceeded, `Expand` panics with the
hash object untouched, and so do `hashToField` and the `Hash` of both
orchestrators built on that expander. The message length is not limited: under
the preconditions of `Expand`, a message of any length is expanded. -/
theorem Expand_limits {K Pt : Type} [Field K] [DecidableEq K] (e : expanderXMD)
    (msg : List Nat) :
    (∀ n, (e.dst.length > 255 ∨ n > 65535) →
      (∃ p, (e.Expand msg n).1 = Except.error p) ∧ (e.Expand msg n).2 = HashState.New) ∧
    (∀ (f : fieldEncoding K) (count : Nat), f.Exp = e.toExpander →
      (e.dst.length > 255 ∨ wrap (wrap (count * f.F.Ext) * f.L) > 65535) →
      ∃ p, f.hashToField msg count = Except.error p) ∧
    (∀ sh : hashToCurve K Pt, sh.Field.Exp = e.toExpander →
      (e.dst.length > 255 ∨ wrap (wrap (2 * sh.Field.F.Ext) * sh.Field.L) > 65535) →
      ∃ p, sh.Hash msg = Except.error p) ∧
    (∀ se : encodeToCurve K Pt, se.Field.Exp = e.toExpander →
      (e.dst.length > 255 ∨ wrap (wrap (1 * se.Field.F.Ext) * se.Field.L) > 65535) →
      ∃ p, se.Hash msg = Except.error p) ∧
    (e.id.WellFormed → 1 ≤ e.id.Size → e.dst.length ≤ 255 →
      ∀ n, n ≤ 65535 → specEll e.id.Size n ≤ 255 →
        ∃ out, (e.Expand msg n).1 = Except.ok out ∧ out.length = n) := by
  have hf : ∀ (f : fieldEncoding K) (count : Nat), f.Exp = e.toExpander →
      (e.dst.length > 255 ∨ wrap (wrap (count * f.F.Ext) * f.L) > 65535) →
      ∃ p, f.hashToField msg count = Except.error p := by
    intro f count hExp h
    obtain ⟨⟨p, hp⟩, _⟩ := Expand_reject_dst_or_n e msg _ h
    refine ⟨p, ?_⟩
    unfold fieldEncoding.hashToField
    simp only [hExp, expanderXMD.toExpander, hp]
  refine ⟨fun n h => Expand_reject_dst_or_n e msg n h, hf, ?_, ?_, ?_⟩
  · intro sh hExp h
    obtain ⟨p, hp⟩ := hf sh.Field 2 hExp h
    exact ⟨p, by simp only [hashToCurve.Hash, hp]⟩
  · intro se hExp h
    obtain ⟨p, hp⟩ := hf se.Field 1 hExp h
    exact ⟨p, by simp only [encodeToCurve.Hash, hp]⟩
  · intro hH hb hdst n hn hell
    exact ⟨_, Expand_accept e msg n hH hb hn hell hdst,
      specExpand_length e.id hH hb e.dst msg n⟩

/-- C15, counterexample: with the toy hash of four bytes, a tag of two bytes
and `n = 2000 ≤ 65535`, `Expand` panics: 500 blocks would be needed. -/
theorem Expand_n_counterexample :
    (expanderXMD.mk toyHash [1, 2]).dst.length ≤ 255 ∧ 2000 ≤ 65535 ∧
    ((expanderXMD.mk toyHash [1, 2]).Expand [5] 2000).1 =
      Except.error Panic.tooManyBytes :=
  ⟨by decide, by decide, by rfl⟩

theorem specEll_le_iff (b n : Nat) (hb : 0 < b) : specEll b n ≤ 255 ↔ n ≤ 255 * b := by
  unfold specEll
  rw [← Nat.lt_succ_iff, Nat.div_lt_iff_lt_mul hb]
  omega

/-- C15, amended: for a well-formed hash of output size `b ≥ 1`, a tag of at
most 255 bytes and `n ≤ 65535`, `Expand` returns exactly `n` bytes when
`n ≤ 255 * b`, and panics when `n > 255 * b`. -/
theorem Expand_length_iff (e : expanderXMD) (msg : List Nat) (n : Nat)
    (hH : e.id.WellFormed) (hb : 1 ≤ e.id.Size) (hdst : e.dst.length ≤ 255)
    (hn : n ≤ 65535) :
    (n ≤ 255 * e.id.Size → ∃ out, (e.Expand msg n).1 = Except.ok out ∧ out.length = n) ∧
    (255 * e.id.Size < n → (e.Expand msg n).1 = Except.error Panic.tooManyBytes) := by
  constructor
  · intro h
    have hell := (specEll_le_iff e.id.Size n hb).mpr h
    exact ⟨_, Expand_accept e msg n hH hb hn hell hdst,
      specExpand_length e.id hH hb e.dst msg n⟩
  · intro h
    have hell : ¬ specEll e.id.Size n ≤ 255 := fun h1 =>
      absurd ((specEll_le_iff e.id.Size n hb).mp h1) (by omega)
    have hc : wrap (n + wrap (e.id.Size - 1)) / e.id.Size > 255 ∨ n > 65535 ∨
        e.dst.length > 255 := by
      rw [ell_eq e.id.Size n hb hH.2 hn]
      exact Or.inl (by omega)
    unfold expanderXMD.Expand
    simp only [Nat.ne_of_gt hb, if_false, if_pos hc]

/-- Witness of C15 as amended, on the toy hash: 1020 bytes are returned, 1021
are refused. -/
theorem Expand_length_iff_witness :
    ((1020 ≤ 255 * (expanderXMD.mk toyHash [1, 2]).id.Size →
      ∃ out, ((expanderXMD.mk toyHash [1, 2]).Expand [5] 1020).1 = Except.ok out ∧
        out.length = 1020) ∧
    (255 * (expanderXMD.mk toyHash [1, 2]).id.Size < 1020 →
      ((expanderXMD.mk toyHash [1, 2]).Expand [5] 1020).1 =
        Except.error Panic.tooManyBytes)) ∧
    ((1021 ≤ 255 * (expanderXMD.mk toyHash [1, 2]).id.Size →
      ∃ out, ((expanderXMD.mk toyHash [1, 2]).Expand [5] 1021).1 = Except.ok out ∧
        out.length = 1021) ∧
    (255 * (expanderXMD.mk toyHash [1, 2]).id.Size < 1021 →
      ((expanderXMD.mk toyHash [1, 2]).Expand [5] 1021).1 =
        Except.error Panic.tooManyBytes)) :=
  ⟨Expand_length_iff (expanderXMD.mk toyHash [1, 2]) [5] 1020
      ⟨fun x => by simp [toyHash], by decide⟩ (by decide) (by decide) (by decide),
    Expand_length_iff (expanderXMD.mk toyHash [1, 2]) [5] 1021
      ⟨fun x => by simp [toyHash], by decide⟩ (by decide) (by decide) (by decide)⟩

/-! ## The orchestrator and the isogeny -/

/-- C16, the code at a failing input: `hashToCurveIso7` is configured for the
degenerate `y^2 = x^3 + 1` over `F7` with the isogeny `isogeny7` from
`y^2 = x^3 + 3*x + 1`. For the message `[6]` the field elements are `1` and
`0`, mapped on the isogenous curve to `(3, 3)` and `(4, 0)`. `Hash` adds these
two points with the law of the target curve and returns `(1, 1)`, which is not
on the target curve; the image of the isogeny is never taken, whereas the
adapter built by `NewSSWU` returns the pushed points, from which the claimed
value `(0, 1)` results. `Hash` does not read the field `Isogeny` at all. -/
theorem hashToCurve_Hash_skips_Push :
    target7.A = 0 ∧ hashToCurveIso7.Map.verify = Except.ok true ∧
    hashToCurveIso7.Field.hashToField [6] 2 = Except.ok [1, 0] ∧
    hashToCurveIso7.Map.Map 1 = Except.ok (some (3, 3)) ∧
    hashToCurveIso7.Map.Map 0 = Except.ok (some (4, 0)) ∧
    hashToCurveIso7.Hash [6] = Except.ok (some (1, 1)) ∧
    onCurve7 target7.A target7.B (some (1, 1)) = false ∧
    hashToCurveIso7.E.ClearCofactor (hashToCurveIso7.E.Add (isogeny7.Push (some (3, 3)))
      (isogeny7.Push (some (4, 0)))) = some (0, 1) ∧
    (∃ mp, NewSSWU target7 3 (some (fun _ => isogeny7)) = Except.ok mp ∧
      mp.Map 1 = Except.ok (isogeny7.Push (some (3, 3))) ∧
      mp.Map 0 = Except.ok (isogeny7.Push (some (4, 0)))) ∧
    (∀ (s : hashToCurve F7 Pt7) (iso : Option (Isogeny F7 Pt7)) (msg : List Nat),
      hashToCurve.Hash { Map := s.Map, E := s.E, Field := s.Field, Isogeny := iso } msg =
        s.Hash msg) :=
  ⟨rfl, by rfl, by rfl, by rfl, by rfl, by rfl, by rfl, by rfl,
    ⟨MapToCurve.ab0 target7 isogeny7 (MapToCurve.direct sswu7), by rfl, by rfl, by rfl⟩,
    fun _ _ _ => rfl⟩

/-! ## The square root of a ratio -/

/-- C17: for `den ≠ 0` and a non-square `Z` in a finite field, under the
contract of the field collaborator, `sqrtRatio(num, den)` returns `(true, s)`
with `s^2 = num/den` when `num/den` is a square and `(false, s)` with
`s^2 = Z * num/den` otherwise; in both cases `s` is `Sqrt` of a square. -/
theorem sqrtRatio_spec {K Pt : Type} [Field K] [Fintype K] [DecidableEq K]
    (m : sswu K Pt) (hL : LawfulField m.E.F) (hZ : ¬IsSquare m.Z) (num den : K)
    (hden : den ≠ 0) :
    ∃ b s a, m.sqrtRatio num den = Except.ok (b, s) ∧ s = m.E.F.Sqrt a ∧ IsSquare a ∧
      s * s = a ∧
      (IsSquare (num / den) → b = true ∧ a = num / den) ∧
      (¬IsSquare (num / den) → b = false ∧ a = m.Z * (num / den)) := by
  have hr : den⁻¹ * num = num / den := by rw [div_eq_mul_inv, mul_comm]
  unfold sswu.sqrtRatio
  simp only [hL.inv den hden, hr]
  by_cases hs : m.E.F.IsSquare (num / den) = true
  · have hsq : IsSquare (num / den) := (hL.isSquare _).mp hs
    refine ⟨true, m.E.F.Sqrt (num / den), num / den, by simp only [hs, if_true], rfl, hsq,
      hL.sqrt _ hsq, fun _ => ⟨rfl, rfl⟩, fun h => absurd hsq h⟩
  · have hns : ¬IsSquare (num / den) := fun h => hs ((hL.isSquare _).mpr h)
    have hsq : IsSquare (num / den * m.Z) := isSquare_mul_of_not hns hZ
    refine ⟨false, m.E.F.Sqrt (num / den * m.Z), num / den * m.Z,
      by simp only [hs, Bool.false_eq_true, if_false], rfl, hsq, hL.sqrt _ hsq,
      fun h => absurd h hns, fun _ => ⟨rfl, mul_comm _ _⟩⟩

/-- Witness of C17 over `F11` with `Z = 2`, at `num = 3` and `den = 4`. -/
theorem sqrtRatio_spec_witness :
    ∃ b s a, sswu11.sqrtRatio 3 4 = Except.ok (b, s) ∧ s = sswu11.E.F.Sqrt a ∧
      IsSquare a ∧ s * s = a ∧
      (IsSquare ((3 : F11) / 4) → b = true ∧ a = 3 / 4) ∧
      (¬IsSquare ((3 : F11) / 4) → b = false ∧ a = sswu11.Z * (3 / 4)) :=
  sqrtRatio_spec sswu11 gf11_lawful
    (fun h => by
      have h2 : ∀ r : F11, ¬ (2 : F11) = r * r := by decide
      obtain ⟨r, hr⟩ := h
      exact h2 r hr)
    3 4 (by decide)

/-! ## Inversions and the closed form of the map -/

/-- C19: when `A ≠ 0` and `Z` is a non-square (so `Z ≠ 0`), and `Inv` inverts
every non-zero element, then for every `u` the denominator
`tv4 = A * CMov(Z, -tv2, tv2 ≠ 0)` and its cube `tv6` are non-zero, both
inversions made by `Map` succeed, and `Map(u)` returns a point, whatever `Inv`
does at zero. -/
theorem sswu_Map_never_inverts_zero {K Pt : Type} [Field K] [DecidableEq K]
    (m : sswu K Pt) (hL : LawfulField m.E.F) (hA : m.E.A ≠ 0) (hZ : ¬IsSquare m.Z)
    (u tv1 tv2 tv4 : K) (h1 : tv1 = m.Z * (u * u)) (h2 : tv2 = tv1 * tv1 + tv1)
    (h4 : tv4 = m.E.A * CMov m.Z (-tv2) (!decide (tv2 = 0))) :
    m.Z ≠ 0 ∧ tv4 ≠ 0 ∧ tv4 * tv4 * tv4 ≠ 0 ∧
    m.E.F.Inv tv4 = Except.ok tv4⁻¹ ∧
    m.E.F.Inv (tv4 * tv4 * tv4) = Except.ok (tv4 * tv4 * tv4)⁻¹ ∧
    (∀ num, ∃ r, m.sqrtRatio num (tv4 * tv4 * tv4) = Except.ok r) ∧
    (∃ P, m.Map u = Except.ok P) ∧ (∀ p, m.Map u ≠ Except.error p) := by
  have hZ0 : m.Z ≠ 0 := fun h => hZ (h ▸ isSquare_zero)
  obtain ⟨ht4, _⟩ := mapCoords_eq m hL hA hZ0 u tv1 tv2 _ tv4 _ _ _ h1 h2 rfl h4 rfl rfl rfl
  have ht6 : tv4 * tv4 * tv4 ≠ 0 := mul_ne_zero (mul_ne_zero ht4 ht4) ht4
  obtain ⟨P, hP⟩ := sswu_Map_ok m hL hA hZ0 u
  refine ⟨hZ0, ht4, ht6, hL.inv _ ht4, hL.inv _ ht6, ?_, ⟨P, hP⟩, ?_⟩
  · intro num
    unfold sswu.sqrtRatio
    simp only [hL.inv _ ht6]
    split
    · exact ⟨_, rfl⟩
    · exact ⟨_, rfl⟩
  · intro p hp
    rw [hP] at hp
    cases hp

/-- Witness of C19 over `F11`, at the exceptional `u = 0`, where `tv2 = 0` and
`tv4 = A * Z = 2`; the toy `Inv` refuses zero. -/
theorem sswu_Map_never_inverts_zero_witness :
    sswu11.E.F.Inv 0 = Except.error Panic.arithmetic ∧
    (sswu11.Z ≠ 0 ∧ (2 : F11) ≠ 0 ∧ (2 : F11) * 2 * 2 ≠ 0 ∧
    sswu11.E.F.Inv 2 = Except.ok (2 : F11)⁻¹ ∧
    sswu11.E.F.Inv (2 * 2 * 2) = Except.ok ((2 : F11) * 2 * 2)⁻¹ ∧
    (∀ num, ∃ r, sswu11.sqrtRatio num (2 * 2 * 2) = Except.ok r) ∧
    (∃ P, sswu11.Map 0 = Except.ok P) ∧ (∀ p, sswu11.Map 0 ≠ Except.error p)) :=
  ⟨by rfl, sswu_Map_never_inverts_zero sswu11 gf11_lawful (by decide)
    (fun h => by
      have h2 : ∀ r : F11, ¬ (2 : F11) = r * r := by decide
      obtain ⟨r, hr⟩ := h
      exact h2 r hr)
    0 0 0 2 (by decide) (by decide) (by decide)⟩

theorem specX1_eq {K : Type} [Field K] [DecidableEq K] (A B Z u t2 : K) (hA : A ≠ 0)
    (ht2 : t2 = Z * (u * u) * (Z * (u * u)) + Z * (u * u)) :
    B * (t2 + 1) * (A * CMov Z (-t2) (!decide (t2 = 0)))⁻¹ = specX1 A B Z u := by
  have ht : Z ^ 2 * u ^ 4 + Z * u ^ 2 = t2 := by rw [ht2]; ring
  unfold specX1
  simp only [ht]
  by_cases h0 : t2 = 0
  · simp only [h0, CMov, decide_True, Bool.not_true, Bool.false_eq_true, if_false, if_true,
      zero_add, mul_one]
    rw [div_eq_mul_inv, mul_comm A Z]
  · simp only [h0, CMov, decide_False, Bool.not_false, if_true, if_false]
    field_simp

/-- C20: for `(E, Z)` accepted by `verify`, the mapper returned by `newSSWU`
carries `c1 = -B/A` and `c2 = -1/Z`, and for every `u`, with
`t = Z^2*u^4 + Z*u^2` and `x1 = c1 * (1 + 1/t)` for `t ≠ 0`, `x1 = c1 * c2` for
`t = 0`, the abscissa returned by `Map(u)` is `x1` when `g(x1)` is a square and
`Z * u^2 * x1` otherwise. -/
theorem sswu_Map_closed_form {K Pt : Type} [Field K] [DecidableEq K] (e : W K Pt) (z : K)
    (hL : LawfulField e.F)
    (hv : sswu.verify { E := e, Z := z, c1 := none, c2 := none } = Except.ok true) (u : K) :
    ∃ s x y, newSSWU e z = Except.ok s ∧ s.c1 = some (-e.B / e.A) ∧
      s.c2 = some (-1 / z) ∧ s.mapCoords u = Except.ok (x, y) ∧
      s.Map u = Except.ok (e.NewPoint x y) ∧
      (z ^ 2 * u ^ 4 + z * u ^ 2 ≠ 0 →
        specX1 e.A e.B z u = (-e.B / e.A) * (1 + 1 / (z ^ 2 * u ^ 4 + z * u ^ 2))) ∧
      (z ^ 2 * u ^ 4 + z * u ^ 2 = 0 → specX1 e.A e.B z u = (-e.B / e.A) * (-1 / z)) ∧
      (IsSquare (e.EvalRHS (specX1 e.A e.B z u)) → x = specX1 e.A e.B z u) ∧
      (¬IsSquare (e.EvalRHS (specX1 e.A e.B z u)) → x = z * u ^ 2 * specX1 e.A e.B z u) := by
  obtain ⟨hA, hB, hZns, _, _⟩ :=
    (verify_eq_true_iff { E := e, Z := z, c1 := none, c2 := none } hL).mp hv
  have hA : e.A ≠ 0 := hA
  have hZ : z ≠ 0 := fun h => hZns (h ▸ isSquare_zero)
  have hs := newSSWU_of_verify e z hL hv
  obtain ⟨ht4, hmap⟩ := mapCoords_eq
    { E := e, Z := z, c1 := some (-(e.A⁻¹ * e.B)), c2 := some (-z⁻¹) } hL hA hZ u
    _ _ _ _ _ _ _ rfl rfl rfl rfl rfl rfl rfl
  simp only at ht4 hmap
  have hx1 := specX1_eq e.A e.B z u _ hA rfl
  have hr := ratio_eq_rhs e.A e.B (e.B * (z * (u * u) * (z * (u * u)) + z * (u * u) + 1))
    _ ht4
  rw [hx1] at hr
  rw [hr] at hmap
  have key : ∃ x y,
      sswu.mapCoords { E := e, Z := z, c1 := some (-(e.A⁻¹ * e.B)), c2 := some (-z⁻¹) } u =
        Except.ok (x, y) ∧
      (IsSquare (e.EvalRHS (specX1 e.A e.B z u)) → x = specX1 e.A e.B z u) ∧
      (¬IsSquare (e.EvalRHS (specX1 e.A e.B z u)) →
        x = z * u ^ 2 * specX1 e.A e.B z u) := by
    refine ⟨_, _, hmap, ?_, ?_⟩
    · intro hsq
      have hb : e.F.IsSquare (specX1 e.A e.B z u ^ 3 + e.A * specX1 e.A e.B z u + e.B) =
          true := (hL.isSquare _).mpr hsq
      simp only [hb]
      rw [show ∀ a b : K, CMov a b true = b from fun _ _ => rfl]
      exact hx1
    · intro hns
      have hb : e.F.IsSquare (specX1 e.A e.B z u ^ 3 + e.A * specX1 e.A e.B z u + e.B) =
          false := by
        rw [← Bool.not_eq_true, hL.isSquare]
        exact hns
      simp only [hb]
      rw [show ∀ a b : K, CMov a b false = a from fun _ _ => rfl, ← hx1]
      ring
  obtain ⟨x, y, hxy, hx_sq, hx_ns⟩ := key
  refine ⟨_, x, y, hs, ?_, ?_, hxy, by simp only [sswu.Map, hxy], ?_, ?_, hx_sq, hx_ns⟩
  · simp only [Option.some.injEq]
    rw [neg_div, div_eq_mul_inv, mul_comm]
  · simp only [Option.some.injEq]
    rw [neg_div, one_div]
  · intro ht
    simp only [specX1, ht, if_false]
  · intro ht
    simp only [specX1, ht, if_true]
    rw [div_mul_div_comm, neg_mul_neg, mul_one, mul_comm e.A z]

/-- Witness of C20 on `y^2 = x^3 + x + 2` over `F11` with `Z = 2`, at `u = 4`. -/
theorem sswu_Map_closed_form_witness :
    ∃ s x y, newSSWU curve11 2 = Except.ok s ∧ s.c1 = some (-curve11.B / curve11.A) ∧
      s.c2 = some (-1 / (2 : F11)) ∧ s.mapCoords 4 = Except.ok (x, y) ∧
      s.Map 4 = Except.ok (curve11.NewPoint x y) ∧
      ((2 : F11) ^ 2 * 4 ^ 4 + 2 * 4 ^ 2 ≠ 0 →
        specX1 curve11.A curve11.B 2 4 =
          (-curve11.B / curve11.A) * (1 + 1 / ((2 : F11) ^ 2 * 4 ^ 4 + 2 * 4 ^ 2))) ∧
      ((2 : F11) ^ 2 * 4 ^ 4 + 2 * 4 ^ 2 = 0 →
        specX1 curve11.A curve11.B 2 4 = (-curve11.B / curve11.A) * (-1 / 2)) ∧
      (IsSquare (curve11.EvalRHS (specX1 curve11.A curve11.B 2 4)) →
        x = specX1 curve11.A curve11.B 2 4) ∧
      (¬IsSquare (curve11.EvalRHS (specX1 curve11.A curve11.B 2 4)) →
        x = 2 * 4 ^ 2 * specX1 curve11.A curve11.B 2 4) :=
  sswu_Map_closed_form curve11 2 gf11_lawful (by rfl) 4

/-! ## The slices read by `hashToField` -/

theorem chunks_flatten (xs : List Nat) (L : Nat) :
    ∀ N, ((List.range N).map (fun k => (xs.drop (L * k)).take L)).flatten = xs.take (L * N)
  | 0 => by simp
  | N + 1 => by
    rw [List.range_succ, List.map_append, List.flatten_append, chunks_flatten xs L N,
      Nat.mul_succ, List.take_add]
    simp

theorem reindex_flatten {α : Type} (g : Nat → α) (m : Nat) :
    ∀ count, ((List.range count).map
        (fun i => (List.range m).map (fun j => g (j + i * m)))).flatten =
      (List.range (count * m)).map g
  | 0 => by simp
  | count + 1 => by
    rw [List.range_succ, List.map_append, List.flatten_append, reindex_flatten g m count,
      Nat.succ_mul, List.range_add, List.map_append, List.map_map]
    simp only [List.map_cons, List.map_nil, List.flatten_cons, List.flatten_nil,
      List.append_nil]
    congr 1
    apply List.map_congr_left
    intro j _
    simp only [Function.comp_apply, Nat.add_comm]

theorem slices_cover (pseudo : List Nat) (count m L : Nat)
    (hlen : pseudo.length = count * m * L) :
    ((List.range count).map (fun i =>
      ((List.range m).map (fun j => (pseudo.drop (L * (j + i * m))).take L)).flatten)).flatten =
      pseudo := by
  have h1 : ((List.range count).map (fun i =>
      ((List.range m).map (fun j => (pseudo.drop (L * (j + i * m))).take L)).flatten)) =
      ((List.range count).map (fun i =>
        (List.range m).map (fun j => (pseudo.drop (L * (j + i * m))).take L))).map
          List.flatten := by
    rw [List.map_map]
    rfl
  rw [h1, ← List.flatten_flatten,
    reindex_flatten (fun k => (pseudo.drop (L * k)).take L) m count, chunks_flatten]
  exact List.take_of_length_le (by rw [hlen, Nat.mul_comm])

theorem index_lt_of_lt (m i j i1 j1 : Nat) (hj : j < m) (hi : i < i1) :
    j + i * m + 1 ≤ j1 + i1 * m := by
  have h : (i + 1) * m ≤ i1 * m := Nat.mul_le_mul_right m hi
  rw [Nat.add_mul, Nat.one_mul] at h
  omega

theorem slices_disjoint (m L i j i1 j1 : Nat) (hj : j < m) (hj1 : j1 < m)
    (hne : (i, j) ≠ (i1, j1)) :
    L * (j + i * m) + L ≤ L * (j1 + i1 * m) ∨ L * (j1 + i1 * m) + L ≤ L * (j + i * m) := by
  have key : ∀ a b : Nat, a + 1 ≤ b → L * a + L ≤ L * b := by
    intro a b h
    have := Nat.mul_le_mul_left L h
    rwa [Nat.mul_add, Nat.mul_one] at this
  rcases Nat.lt_trichotomy i i1 with h | h | h
  · exact Or.inl (key _ _ (index_lt_of_lt m i j i1 j1 hj h))
  · subst h
    have hjj : j ≠ j1 := fun h => hne (by rw [h])
    rcases Nat.lt_or_gt_of_ne hjj with h | h
    · exact Or.inl (key _ _ (by omega))
    · exact Or.inr (key _ _ (by omega))
  · exact Or.inr (key _ _ (index_lt_of_lt m i1 j1 i j hj1 h))

theorem wrap_length_eq (count m L : Nat) (hnov : count * m * L < 2 ^ 64) :
    wrap (wrap (count * m) * L) = count * m * L := by
  rcases Nat.eq_zero_or_pos L with h0 | hpos
  · simp [h0, wrap]
  · have h1 : count * m ≤ count * m * L := Nat.le_mul_of_pos_right _ hpos
    have h2 : count * m % 2 ^ 64 = count * m := Nat.mod_eq_of_lt (by omega)
    unfold wrap uintSize
    rw [h2, Nat.mod_eq_of_lt hnov]

theorem hashToFieldCoord_eq_of_lt {K : Type} (f : fieldEncoding K) (pseudo : List Nat)
    (count i j : Nat) (hlen : pseudo.length = count * f.F.Ext * f.L)
    (hnov : count * f.F.Ext * f.L < 2 ^ 64) (hp : 0 < f.F.P) (hi : i < count)
    (hj : j < f.F.Ext) :
    f.L * (j + i * f.F.Ext) + f.L ≤ pseudo.length ∧
    slice pseudo (f.L * (j + i * f.F.Ext)) (f.L * (j + i * f.F.Ext) + f.L) =
      Except.ok ((pseudo.drop (f.L * (j + i * f.F.Ext))).take f.L) ∧
    hashToFieldCoord f pseudo i j = Except.ok (specCoord f pseudo i j) := by
  have hb := offset_bound count f.F.Ext i j hi hj
  have hoff : f.L * (j + i * f.F.Ext) + f.L ≤ count * f.F.Ext * f.L := by
    have := Nat.mul_le_mul_left f.L hb
    rw [Nat.mul_add, Nat.mul_one, Nat.mul_comm f.L (count * f.F.Ext)] at this
    exact this
  have hw : wrap (f.L * wrap (j + wrap (i * f.F.Ext))) = f.L * (j + i * f.F.Ext) ∧
      wrap (f.L * (j + i * f.F.Ext) + f.L) = f.L * (j + i * f.F.Ext) + f.L := by
    rcases Nat.eq_zero_or_pos f.L with h0 | hpos
    · simp [h0, wrap]
    · have h1 : count * f.F.Ext ≤ count * f.F.Ext * f.L := Nat.le_mul_of_pos_right _ hpos
      have h2 : i * f.F.Ext < 2 ^ 64 := by omega
      have h3 : j + i * f.F.Ext < 2 ^ 64 := by omega
      have h4 : f.L * (j + i * f.F.Ext) + f.L < 2 ^ 64 := by omega
      unfold wrap uintSize
      rw [Nat.mod_eq_of_lt h2, Nat.mod_eq_of_lt h3, Nat.mod_eq_of_lt (by omega),
        Nat.mod_eq_of_lt h4]
      exact ⟨rfl, rfl⟩
  have hin : f.L * (j + i * f.F.Ext) + f.L ≤ pseudo.length := by rw [hlen]; exact hoff
  have hslice : slice pseudo (f.L * (j + i * f.F.Ext)) (f.L * (j + i * f.F.Ext) + f.L) =
      Except.ok ((pseudo.drop (f.L * (j + i * f.F.Ext))).take f.L) := by
    unfold slice
    rw [if_pos ⟨Nat.le_add_right _ _, hin⟩, Nat.add_sub_cancel_left]
  refine ⟨hin, hslice, ?_⟩
  unfold hashToFieldCoord
  simp only [hw.1, hw.2, hslice, if_neg (Nat.ne_of_gt hp)]
  rfl

theorem hashToField_eq_of_lt {K : Type} (f : fieldEncoding K) (msg pseudo : List Nat)
    (count : Nat) (hExp : f.Exp.Expand msg (count * f.F.Ext * f.L) = Except.ok pseudo)
    (hlen : pseudo.length = count * f.F.Ext * f.L)
    (hnov : count * f.F.Ext * f.L < 2 ^ 64) (hp : 0 < f.F.P) :
    f.hashToField msg count =
      Except.ok ((List.range count).map (fun i => specElt f pseudo i)) := by
  unfold fieldEncoding.hashToField
  simp only [wrap_length_eq count f.F.Ext f.L hnov, hExp]
  rw [forLoop_ok _ (fun i => specElt f pseudo i) count 0]
  · rw [List.range_eq_range']
  · intro i _ hi
    rw [forLoop_ok _ (fun j => specCoord f pseudo i j) f.F.Ext 0]
    · simp only [specElt, List.range_eq_range']
    · intro j _ hj
      exact (hashToFieldCoord_eq_of_lt f pseudo count i j hlen hnov hp (by omega)
        (by omega)).2.2

/-- C18, counterexample: with `count = 2`, `m = 1` and `L = 2 ^ 63` the product
`count * m * L` wraps to `0`; the expander is asked for no bytes and succeeds,
returning the empty string, and `hashToField` then panics on its own slice
`pseudo[0 : 2 ^ 63]`. -/
theorem hashToField_overflow_counterexample :
    fieldEncodingWide.F.Ext = 1 ∧ fieldEncodingWide.L = 2 ^ 63 ∧
    0 < fieldEncodingWide.F.P ∧
    wrap (wrap (2 * fieldEncodingWide.F.Ext) * fieldEncodingWide.L) = 0 ∧
    fieldEncodingWide.Exp.Expand [5]
      (wrap (wrap (2 * fieldEncodingWide.F.Ext) * fieldEncodingWide.L)) = Except.ok [] ∧
    fieldEncodingWide.hashToField [5] 2 = Except.error Panic.outOfRange :=
  ⟨rfl, rfl, by decide, by rfl, by rfl, by rfl⟩

/-- C18, amended: with a positive characteristic and a product
`count * m * L` that a `uint` holds, and an expander that returns the number of
bytes it is asked for, `hashToField` asks the expander for `count * m * L`
bytes; when that call succeeds, every slice `pseudo[offset : offset+L]` with
`offset = L * (j + i*m)`, `i < count`, `j < m`, is within bounds, distinct
slices do not overlap, the slices in order make up `pseudo`, and
`hashToField` returns `count` elements; `hashToField` panics exactly when the
expander does, with the same panic. -/
theorem hashToField_fails_only_with_Expand {K : Type} (f : fieldEncoding K)
    (msg : List Nat) (count : Nat) (hp : 0 < f.F.P)
    (hnov : count * f.F.Ext * f.L < 2 ^ 64)
    (hret : ∀ pseudo, f.Exp.Expand msg (count * f.F.Ext * f.L) = Except.ok pseudo →
      pseudo.length = count * f.F.Ext * f.L) :
    wrap (wrap (count * f.F.Ext) * f.L) = count * f.F.Ext * f.L ∧
    (∀ pseudo, f.Exp.Expand msg (count * f.F.Ext * f.L) = Except.ok pseudo →
      (∀ i j, i < count → j < f.F.Ext →
        f.L * (j + i * f.F.Ext) + f.L ≤ pseudo.length ∧
        slice pseudo (f.L * (j + i * f.F.Ext)) (f.L * (j + i * f.F.Ext) + f.L) =
          Except.ok ((pseudo.drop (f.L * (j + i * f.F.Ext))).take f.L) ∧
        hashToFieldCoord f pseudo i j = Except.ok (specCoord f pseudo i j)) ∧
      (∀ i j i1 j1, i < count → j < f.F.Ext → i1 < count → j1 < f.F.Ext →
        (i, j) ≠ (i1, j1) →
        f.L * (j + i * f.F.Ext) + f.L ≤ f.L * (j1 + i1 * f.F.Ext) ∨
          f.L * (j1 + i1 * f.F.Ext) + f.L ≤ f.L * (j + i * f.F.Ext)) ∧
      ((List.range count).map (fun i => ((List.range f.F.Ext).map
        (fun j => (pseudo.drop (f.L * (j + i * f.F.Ext))).take f.L)).flatten)).flatten =
          pseudo ∧
      ∃ us, f.hashToField msg count = Except.ok us ∧ us.length = count) ∧
    (∀ p, f.Exp.Expand msg (count * f.F.Ext * f.L) = Except.error p →
      f.hashToField msg count = Except.error p) ∧
    (∀ p, f.hashToField msg count = Except.error p →
      f.Exp.Expand msg (count * f.F.Ext * f.L) = Except.error p) := by
  have hw := wrap_length_eq count f.F.Ext f.L hnov
  have hok : ∀ pseudo, f.Exp.Expand msg (count * f.F.Ext * f.L) = Except.ok pseudo →
      ∃ us, f.hashToField msg count = Except.ok us ∧ us.length = count := by
    intro pseudo hE
    exact ⟨_, hashToField_eq_of_lt f msg pseudo count hE (hret pseudo hE) hnov hp, by simp⟩
  have herr : ∀ p, f.Exp.Expand msg (count * f.F.Ext * f.L) = Except.error p →
      f.hashToField msg count = Except.error p := by
    intro p hE
    unfold fieldEncoding.hashToField
    simp only [hw, hE]
  refine ⟨hw, ?_, herr, ?_⟩
  · intro pseudo hE
    have hlen := hret pseudo hE
    refine ⟨?_, ?_, slices_cover pseudo count f.F.Ext f.L hlen, hok pseudo hE⟩
    · intro i j hi hj
      exact hashToFieldCoord_eq_of_lt f pseudo count i j hlen hnov hp hi hj
    · intro i j i1 j1 _ hj _ hj1 hne
      exact slices_disjoint f.F.Ext f.L i j i1 j1 hj hj1 hne
  · intro p hf
    rcases hE : f.Exp.Expand msg (count * f.F.Ext * f.L) with p1 | pseudo
    · rw [herr p1 hE] at hf
      rw [Except.error.inj hf]
    · obtain ⟨us, hus, _⟩ := hok pseudo hE
      rw [hus] at hf
      cases hf

/-- Witness of C18 as amended: over `F11` the toy expander returns the four
bytes requested for two elements, the two slices of two bytes make up the
output, and `hashToField` returns two elements. -/
theorem hashToField_fails_only_with_Expand_witness :
    0 < fieldEncoding11.F.P ∧
    2 * fieldEncoding11.F.Ext * fieldEncoding11.L < 2 ^ 64 ∧
    fieldEncoding11.Exp.Expand [5] (2 * fieldEncoding11.F.Ext * fieldEncoding11.L) =
      Except.ok [121, 122, 242, 170] ∧
    ((List.range 2).map (fun i => ((List.range fieldEncoding11.F.Ext).map
      (fun j => (([121, 122, 242, 170] : List Nat).drop
        (fieldEncoding11.L * (j + i * fieldEncoding11.F.Ext))).take
          fieldEncoding11.L)).flatten)).flatten = [121, 122, 242, 170] ∧
    ∃ us, fieldEncoding11.hashToField [5] 2 = Except.ok us ∧ us.length = 2 :=
  ⟨by decide, by decide, by rfl,
    ((hashToField_fails_only_with_Expand fieldEncoding11 [5] 2 (by decide) (by decide)
      (fun pseudo h => by
        have he : fieldEncoding11.Exp.Expand [5]
            (2 * fieldEncoding11.F.Ext * fieldEncoding11.L) =
            Except.ok [121, 122, 242, 170] := by rfl
        rw [he] at h
        rw [← Except.ok.inj h]
        rfl)).2.1 [121, 122, 242, 170] (by rfl)).2.2⟩

end H2C
